import Mathlib

/-!
Verification of the bidirectional BFS core of the Actor-Degrees-Of-Separation
application (`src/app.py`).

The embedding mirrors the Python source:

* `Tag`/`Node` model the `("person", id)` / `("movie", id)` tuples.
* `Tmdb` models the external TMDb provider (`tmdb_get`): each credits fetch
  either returns the raw list of ids or fails (HTTP / network error raised by
  `raise_for_status`).
* `lruStep` models `functools.lru_cache(maxsize=10_000)`: hit moves the key to
  the most-recently-used position; a miss computes, and caches only on success
  (CPython does not cache raised exceptions); insertion past capacity drops the
  least-recently-used entry.
* `person_movies_cached` / `movie_cast_cached` model `_person_movies_cached` /
  `_movie_cast_cached` (fetch, `tuple(sorted({...}))`, memoised).
* `visitNbrs`/`expandSteps`/`expand` model the inner `expand` closure,
  `loopD` models the `while qa and qb and depth <= max_edges` loop,
  `reconstruct` models `reconstruct`, and `bidir_bfs_people` ties them together.
  The cache state is threaded explicitly (it is module-global in Python) and
  exceptions are modelled by `Except`, with the cache state also returned on
  the error path (the Python caches survive a raised exception).

A second, cache-free and failure-free copy of the search (`expandStepsP`,
`loopP`, `bidirP`) over an abstract neighbour function is used to prove the
graph-theoretic properties; bridge lemmas relate it to the threaded model.
-/

set_option maxHeartbeats 1000000

namespace ActorDeg

/-- Tag of a graph vertex: the Python code uses the strings `"person"` and `"movie"`. -/
inductive Tag where
  | person
  | movie
deriving DecidableEq, Repr

/-- Node of the bipartite graph, mirroring the tuples `(node_type, node_id)`. -/
abbrev Node := Tag × Nat

/-- Parent maps `pa` / `pb`: Python dicts from node to parent node (the root is
stored with value `None`). -/
abbrev PMap := List (Node × Option Node)

/-- Python `pa.get(cur)`: `none` both for a missing key and for the root, which is
stored with value `None`. -/
def pget (m : PMap) (k : Node) : Option Node :=
  match m with
  | [] => none
  | (a, v) :: rest => if k = a then v else pget rest k

/-- State of one search direction: the queue (`deque`), the parent dict and the
visited set of that side. -/
structure Side where
  q : List Node
  parents : PMap
  visited : List Node
deriving DecidableEq, Repr

/-- Errors raised by `tmdb_get` (`r.raise_for_status()` on a 404, or a transport
error from `requests`). -/
inductive TmdbError where
  | notFound
  | network
deriving DecidableEq, Repr

/-- The external TMDb provider: raw movie ids of a person's credits and raw cast
ids of a movie, as returned by `tmdb_get`, or a raised error. -/
structure Tmdb where
  personCredits : Nat → Except TmdbError (List Nat)
  movieCredits : Nat → Except TmdbError (List Nat)

/-- One `functools.lru_cache` table: key/value pairs, most recently used first. -/
abbrev Cache := List (Nat × List Nat)

/-- Cache states of the two independent `@lru_cache` decorators on
`_person_movies_cached` and `_movie_cast_cached`. -/
structure CacheState where
  person : Cache
  movie : Cache
deriving DecidableEq, Repr

/-- Capacity of each of the two caches: `@lru_cache(maxsize=10_000)`. -/
def LRU_MAXSIZE : Nat := 10000

/-- Lookup in an LRU table. -/
def clookup (c : Cache) (k : Nat) : Option (List Nat) :=
  match c with
  | [] => none
  | (a, v) :: rest => if k = a then some v else clookup rest k

/-- Remove the (unique) entry of a key from an LRU table. -/
def cerase (c : Cache) (k : Nat) : Cache :=
  match c with
  | [] => []
  | (a, v) :: rest => if k = a then rest else (a, v) :: cerase rest k

/-- One call through `functools.lru_cache(maxsize=cap)`: on a hit the entry moves
to the most-recently-used position; on a miss the wrapped function runs — if it
raises, nothing is cached and the error propagates; if it succeeds the result is
inserted and, past capacity, the least-recently-used entry is dropped. -/
def lruStep (cap : Nat) (c : Cache) (compute : Nat → Except TmdbError (List Nat))
    (k : Nat) : Except TmdbError (List Nat) × Cache :=
  match clookup c k with
  | some v => (.ok v, (k, v) :: cerase c k)
  | none =>
    match compute k with
    | .error e => (.error e, c)
    | .ok v =>
      let c' := (k, v) :: c
      (.ok v, if cap < c'.length then c'.dropLast else c')

/-- Python `tuple(sorted({...}))`: the distinct ids in ascending order. -/
def sortedDedup (l : List Nat) : List Nat :=
  l.dedup.insertionSort (· ≤ ·)

/-- Model of `_person_movies_cached`: memoised `tuple(sorted({m["id"] for m in cast}))`
of the `/person/{id}/movie_credits` fetch. -/
def person_movies_cached (t : Tmdb) (st : CacheState) (p : Nat) :
    Except TmdbError (List Nat) × CacheState :=
  let r := lruStep LRU_MAXSIZE st.person (fun k => (t.personCredits k).map sortedDedup) p
  (r.1, { st with person := r.2 })

/-- Model of `_movie_cast_cached`: memoised `tuple(sorted({c["id"] for c in cast}))`
of the `/movie/{id}/credits` fetch. -/
def movie_cast_cached (t : Tmdb) (st : CacheState) (m : Nat) :
    Except TmdbError (List Nat) × CacheState :=
  let r := lruStep LRU_MAXSIZE st.movie (fun k => (t.movieCredits k).map sortedDedup) m
  (r.1, { st with movie := r.2 })

/-- Neighbour resolution of one node as performed inside `expand`: a person's
cached movie ids become `("movie", mid)` nodes, a movie's cached cast ids become
`("person", pid)` nodes. -/
def neighborsCached (t : Tmdb) (st : CacheState) : Node → Except TmdbError (List Node) × CacheState
  | (.person, pid) =>
    let r := person_movies_cached t st pid
    (r.1.map (List.map (fun m => (Tag.movie, m))), r.2)
  | (.movie, mid) =>
    let r := movie_cast_cached t st mid
    (r.1.map (List.map (fun p => (Tag.person, p))), r.2)

/-- Inner neighbour loop of `expand`: for each resolved neighbour `nxt`, if it is
unvisited on this side it is added to `visited`, given a parent pointer, appended
to the queue, and — if it is already visited on the other side — returned
immediately as the meeting node. -/
def visitNbrs (parent : Node) (nbrs : List Node) (s : Side) (other : List Node) :
    Side × Option Node :=
  match nbrs with
  | [] => (s, none)
  | nxt :: rest =>
    if nxt ∈ s.visited then visitNbrs parent rest s other
    else
      let s' : Side := ⟨s.q ++ [nxt], (nxt, some parent) :: s.parents, nxt :: s.visited⟩
      if nxt ∈ other then (s', some nxt) else visitNbrs parent rest s' other

/-- Outer loop of `expand`: `for _ in range(len(q))` dequeues from the left,
resolves the node's neighbours through the cache and runs the inner loop; a
raised fetch error propagates, a meeting returns immediately. -/
def expandSteps (t : Tmdb) (other : List Node) :
    Nat → Side → CacheState → Except TmdbError (Side × Option Node) × CacheState
  | 0, s, st => (.ok (s, none), st)
  | _ + 1, ⟨[], ps, vs⟩, st => (.ok (⟨[], ps, vs⟩, none), st)
  | n + 1, ⟨node :: rest, ps, vs⟩, st =>
    match neighborsCached t st node with
    | (.error e, st') => (.error e, st')
    | (.ok nbrs, st') =>
      let r := visitNbrs node nbrs ⟨rest, ps, vs⟩ other
      match r.2 with
      | some m => (.ok (r.1, some m), st')
      | none => expandSteps t other n r.1 st'

/-- The `expand` closure of `bidir_bfs_people`: processes exactly the
`len(q)` nodes present in the queue at entry. -/
def expand (t : Tmdb) (s : Side) (other : List Node) (st : CacheState) :
    Except TmdbError (Side × Option Node) × CacheState :=
  expandSteps t other s.q.length s st

/-- Parent-pointer walk of `reconstruct`: follow `pm.get` until `None`,
collecting the nodes. The fuel argument only truncates chains longer than the
map itself, which insertion-only parent maps never produce. -/
def chainUp (pm : PMap) : Nat → Node → List Node
  | 0, cur => [cur]
  | f + 1, cur =>
    match pget pm cur with
    | none => [cur]
    | some p => cur :: chainUp pm f p

/-- Model of `reconstruct(pa, pb, meet)`: the reversed parent walk of `meet`
through `pa`, concatenated with the parent walk of `pb.get(meet)` through `pb`. -/
def reconstruct (pa pb : PMap) (meet : Node) : List Node :=
  let left := (chainUp pa pa.length meet).reverse
  let right :=
    match pget pb meet with
    | none => []
    | some c => chainUp pb pb.length c
  left ++ right

/-- Model of `while qa and qb and depth <= max_edges`: each iteration expands
side A, then side B, checking for a meeting after each; `depth` increments once
per iteration. The structural fuel is always at least `max_edges + 1 - depth`,
so it never cuts the loop short (see the fuel-irrelevance theorem). -/
def loopD (t : Tmdb) :
    Nat → Side → Side → Nat → Nat → CacheState →
    Except TmdbError (Option (List Node)) × CacheState
  | 0, _, _, _, _, st => (.ok none, st)
  | fuel + 1, a, b, depth, maxEdges, st =>
    if a.q = [] ∨ b.q = [] ∨ maxEdges < depth then (.ok none, st)
    else
      match expand t a b.visited st with
      | (.error e, st') => (.error e, st')
      | (.ok (a', meetA), st') =>
        match meetA with
        | some m => (.ok (some (reconstruct a'.parents b.parents m)), st')
        | none =>
          match expand t b a'.visited st' with
          | (.error e, st'') => (.error e, st'')
          | (.ok (b', meetB), st'') =>
            match meetB with
            | some m => (.ok (some (reconstruct a'.parents b'.parents m)), st'')
            | none => loopD t fuel a' b' (depth + 1) maxEdges st''

/-- Seeding of one direction: queue `[("person", x)]`, parent dict
`{("person", x): None}`, visited set `{("person", x)}`. -/
def initSide (x : Nat) : Side :=
  ⟨[(Tag.person, x)], [((Tag.person, x), none)], [(Tag.person, x)]⟩

/-- Model of `bidir_bfs_people(source_id, target_id, max_edges)`. The result is
`.ok (some path)`, `.ok none` (Python `None`, the "no path" outcome) or
`.error e` (a raised provider exception), together with the final cache state. -/
def bidir_bfs_people (t : Tmdb) (st : CacheState) (source_id target_id : Nat)
    (max_edges : Nat) : Except TmdbError (Option (List Node)) × CacheState :=
  if source_id = target_id then (.ok (some [(Tag.person, source_id)]), st)
  else loopD t (max_edges + 1) (initSide source_id) (initSide target_id) 0 max_edges st

/-! ### Pure copy of the search

The same algorithm over a total neighbour function, with the cache and the
error channel stripped away. Bridge lemmas below relate it to the threaded
model; the graph-theoretic proofs live here. -/

/-- Pure variant of `expandSteps` over a total neighbour function. -/
def expandStepsP (nb : Node → List Node) (other : List Node) :
    Nat → Side → Side × Option Node
  | 0, s => (s, none)
  | _ + 1, ⟨[], ps, vs⟩ => (⟨[], ps, vs⟩, none)
  | n + 1, ⟨node :: rest, ps, vs⟩ =>
    let r := visitNbrs node (nb node) ⟨rest, ps, vs⟩ other
    match r.2 with
    | some m => (r.1, some m)
    | none => expandStepsP nb other n r.1

/-- Pure variant of `expand`. -/
def expandP (nb : Node → List Node) (s : Side) (other : List Node) : Side × Option Node :=
  expandStepsP nb other s.q.length s

/-- Pure variant of `loopD`. -/
def loopP (nb : Node → List Node) :
    Nat → Side → Side → Nat → Nat → Option (List Node)
  | 0, _, _, _, _ => none
  | fuel + 1, a, b, depth, maxEdges =>
    if a.q = [] ∨ b.q = [] ∨ maxEdges < depth then none
    else
      match expandP nb a b.visited with
      | (a', some m) => some (reconstruct a'.parents b.parents m)
      | (a', none) =>
        match expandP nb b a'.visited with
        | (b', some m) => some (reconstruct a'.parents b'.parents m)
        | (b', none) => loopP nb fuel a' b' (depth + 1) maxEdges

/-- Pure variant of `bidir_bfs_people`. -/
def bidirP (nb : Node → List Node) (source_id target_id : Nat) (max_edges : Nat) :
    Option (List Node) :=
  if source_id = target_id then some [(Tag.person, source_id)]
  else loopP nb (max_edges + 1) (initSide source_id) (initSide target_id) 0 max_edges

/-- Raw person credits seen as a total function (the value fetched when the
provider call succeeds). -/
def rawP (t : Tmdb) (k : Nat) : List Nat :=
  match t.personCredits k with
  | .ok r => r
  | .error _ => []

/-- Raw movie credits seen as a total function. -/
def rawM (t : Tmdb) (k : Nat) : List Nat :=
  match t.movieCredits k with
  | .ok r => r
  | .error _ => []

/-- Neighbour function induced by a pair of raw credit functions, after the
`tuple(sorted({...}))` normalisation and tag flip done in the code. -/
def nbrsOf (pm mc : Nat → List Nat) : Node → List Node
  | (.person, pid) => (sortedDedup (pm pid)).map (fun m => (Tag.movie, m))
  | (.movie, mid) => (sortedDedup (mc mid)).map (fun p => (Tag.person, p))

/-- Neighbour function of a provider: the graph its neighbour sets induce. -/
def tmdbNbrs (t : Tmdb) : Node → List Node :=
  nbrsOf (rawP t) (rawM t)

/-- An LRU table is consistent with a fetch function when every stored entry is
the (normalised) result of a successful fetch of its key. -/
def ValidCache (f : Nat → Except TmdbError (List Nat)) (c : Cache) : Prop :=
  ∀ p ∈ c, (f p.1).map sortedDedup = .ok p.2

/-- Cache warmth consistent with an unchanged provider. -/
def Valid (t : Tmdb) (st : CacheState) : Prop :=
  ValidCache t.personCredits st.person ∧ ValidCache t.movieCredits st.movie

/-- Cache-free reference value of one neighbour resolution: what the provider
determines, independent of cache state. -/
def nodeResult (t : Tmdb) : Node → Except TmdbError (List Node)
  | (.person, k) => ((t.personCredits k).map sortedDedup).map (List.map (fun x => (Tag.movie, x)))
  | (.movie, k) => ((t.movieCredits k).map sortedDedup).map (List.map (fun x => (Tag.person, x)))

/-- A provider on which every fetch succeeds. -/
def Total (t : Tmdb) : Prop :=
  (∀ k, ∃ r, t.personCredits k = .ok r) ∧ ∀ k, ∃ r, t.movieCredits k = .ok r

/-- Walks of a given length in the graph of a neighbour function. -/
inductive Walk (nb : Node → List Node) : Node → Node → Nat → Prop where
  | nil (x : Node) : Walk nb x x 0
  | cons {x y z : Node} {n : Nat} : y ∈ nb x → Walk nb y z n → Walk nb x z (n + 1)

/-- Reachability within a given distance. -/
def DistLe (nb : Node → List Node) (x y : Node) (r : Nat) : Prop :=
  ∃ m, m ≤ r ∧ Walk nb x y m

/-- Exact shortest-path distance. -/
def DistEq (nb : Node → List Node) (x y : Node) (d : Nat) : Prop :=
  Walk nb x y d ∧ ∀ m, m < d → ¬ Walk nb x y m

/-- A symmetric neighbour function: the provider's adjacency is consistent in
both directions (a person is in the cast of each movie in their credits). -/
def Symm (nb : Node → List Node) : Prop :=
  ∀ u v, v ∈ nb u → u ∈ nb v

/-- Parent chains of a parent map: `PChain pm v l` says that following parent
pointers from `v` visits exactly the nodes of `l` and ends at a root. -/
inductive PChain (pm : PMap) : Node → List Node → Prop where
  | root {v : Node} : pget pm v = none → PChain pm v [v]
  | step {v u : Node} {l : List Node} :
      pget pm v = some u → PChain pm u l → PChain pm v (v :: l)

/-- Raw provider fetch of a node's neighbour ids, as `expand` would trigger it. -/
def nodeFetch (t : Tmdb) : Node → Except TmdbError (List Nat)
  | (.person, k) => t.personCredits k
  | (.movie, k) => t.movieCredits k

/-- Cache entry of a node in the cache matching its tag. -/
def nodeCached (st : CacheState) : Node → Option (List Nat)
  | (.person, k) => clookup st.person k
  | (.movie, k) => clookup st.movie k

/-- Keys of an LRU table, most recently used first. -/
def cacheKeys (c : Cache) : List Nat :=
  c.map Prod.fst

/-- Provider with an empty, always-successful credit list for every id; used to
exercise the caches alone. -/
def tAll : Tmdb :=
  ⟨fun _ => .ok [], fun _ => .ok []⟩

/-- Sequence of person-credit lookups, threading the cache state: models a run
of distinct `_person_movies_cached` calls. -/
def warmPersons (t : Tmdb) (ids : List Nat) (st : CacheState) : CacheState :=
  ids.foldl (fun s i => (person_movies_cached t s i).2) st

/-- Empty cache state: the two `lru_cache` tables at process start. -/
def cache0 : CacheState :=
  ⟨[], []⟩

/-- Cache state after 10,000 distinct person lookups followed by one movie
lookup, starting from a cold cache. -/
def c4state : CacheState :=
  (movie_cast_cached tAll (warmPersons tAll (List.range LRU_MAXSIZE) cache0) 0).2

/-- Concrete provider for the chain graph
`Person(1)-Movie(10)-Person(2)-Movie(20)-Person(3)` of the spec's §8 scenario,
plus the isolated `Person(4)` (no credits) and unknown ids elsewhere. -/
def chainTmdb : Tmdb where
  personCredits := fun k =>
    if k = 1 then .ok [10] else if k = 2 then .ok [10, 20] else
    if k = 3 then .ok [20] else if k = 4 then .ok [] else .error .notFound
  movieCredits := fun k =>
    if k = 10 then .ok [1, 2] else if k = 20 then .ok [2, 3] else .error .notFound

/-- Expected `PathResult` for the chain scenario. -/
def chainPath : List Node :=
  [(Tag.person, 1), (Tag.movie, 10), (Tag.person, 2), (Tag.movie, 20), (Tag.person, 3)]

/-- Concrete provider for the mid-level-meeting scenario: person 1 appears in
movie 5, person 9 in movie 7. -/
def meetTmdb : Tmdb where
  personCredits := fun k =>
    if k = 1 then .ok [5] else if k = 9 then .ok [7] else .error .notFound
  movieCredits := fun _ => .ok []

/-- Frontier of two persons, both already visited on their own side, as `expand`
receives it. -/
def meetSide : Side :=
  ⟨[(Tag.person, 1), (Tag.person, 9)],
   [((Tag.person, 1), none), ((Tag.person, 9), none)],
   [(Tag.person, 1), (Tag.person, 9)]⟩

/-- Symmetric two-person provider: persons 1 and 2 share movie 10. -/
def pairTmdb : Tmdb where
  personCredits := fun k =>
    if k = 1 then .ok [10] else if k = 2 then .ok [10] else .ok []
  movieCredits := fun k =>
    if k = 10 then .ok [1, 2] else .ok []

/-! ### Graph-side specification vocabulary

Definitions used by the shortest-path development: walks along parent chains,
per-level invariants of the bidirectional search, and the well-formedness
properties of a reconstructed path. -/

/-- A list of nodes in which every element is a neighbour of its successor:
the shape of a parent chain read from a node up to its root. -/
def UpWalk (nb : Node → List Node) (l : List Node) : Prop :=
  List.Chain' (fun x y => x ∈ nb y) l

/-- A parent chain of `v` in `pm` that is simultaneously a shortest walk:
it starts at `v`, ends at `root`, steps along edges, stays inside `visited`,
repeats no node and has exactly `d + 1` nodes where `d` is the exact
distance from `root` to `v`. -/
def ChainSpec (nb : Node → List Node) (root v : Node) (pm : PMap) (visited : List Node)
    (l : List Node) (d : Nat) : Prop :=
  PChain pm v l ∧ l.head? = some v ∧ l.getLast? = some root ∧ UpWalk nb l ∧
    (∀ x ∈ l, x ∈ visited) ∧ l.Nodup ∧ DistEq nb root v d ∧ l.length = d + 1

def SideInv (nb : Node → List Node) (root : Node) (r : Nat) (s : Side) : Prop :=
  (∀ v, v ∈ s.q ↔ DistEq nb root v r) ∧
  (∀ v, v ∈ s.visited ↔ DistLe nb root v r) ∧
  s.parents.map Prod.fst = s.visited ∧
  s.visited.Nodup ∧
  pget s.parents root = none ∧
  ∀ v ∈ s.visited, ∃ l d, ChainSpec nb root v s.parents s.visited l d

def PathProps (nb : Node → List Node) (rootA rootB : Node) (p : List Node) : Prop :=
  p.head? = some rootA ∧ p.getLast? = some rootB ∧
  List.Chain' (fun u v => v ∈ nb u) p

/-! ## Helper lemmas -/

theorem visitNbrs_q_append (parent : Node) (other : List Node) :
    ∀ (nbrs : List Node) (s : Side), ∃ app, (visitNbrs parent nbrs s other).1.q = s.q ++ app := by
  intro nbrs
  induction nbrs with
  | nil => intro s; exact ⟨[], by simp [visitNbrs]⟩
  | cons nxt rest ih =>
    intro s
    simp only [visitNbrs]
    split
    · exact ih s
    · split
      · exact ⟨[nxt], rfl⟩
      · obtain ⟨app, h⟩ := ih ⟨s.q ++ [nxt], (nxt, some parent) :: s.parents, nxt :: s.visited⟩
        exact ⟨[nxt] ++ app, by simpa using h⟩

theorem visitNbrs_meet_mem (parent : Node) (other : List Node) :
    ∀ (nbrs : List Node) (s s' : Side) (m : Node),
      visitNbrs parent nbrs s other = (s', some m) → m ∈ other ∧ m ∈ s'.visited := by
  intro nbrs
  induction nbrs with
  | nil => intro s s' m h; simp [visitNbrs] at h
  | cons nxt rest ih =>
    intro s s' m h
    simp only [visitNbrs] at h
    split at h
    · exact ih s s' m h
    · split at h
      · rename_i hother
        injection h with h1 h2
        injection h2 with h2
        subst h2
        subst h1
        exact ⟨hother, by simp⟩
      · exact ih _ s' m h

theorem loopD_stop (t : Tmdb) (f : Nat) (a b : Side) (depth me : Nat) (st : CacheState)
    (h : me < depth) : loopD t f a b depth me st = (.ok none, st) := by
  cases f with
  | zero => rfl
  | succ f => simp [loopD, h]

theorem loopD_fuel (t : Tmdb) :
    ∀ f g a b depth me st, me + 1 - depth ≤ f → me + 1 - depth ≤ g →
      loopD t f a b depth me st = loopD t g a b depth me st := by
  intro f
  induction f with
  | zero =>
    intro g a b depth me st hf hg
    have hd : me < depth := by omega
    rw [loopD_stop t 0 a b depth me st hd, loopD_stop t g a b depth me st hd]
  | succ f ih =>
    intro g a b depth me st hf hg
    cases g with
    | zero =>
      have hd : me < depth := by omega
      rw [loopD_stop t (f + 1) a b depth me st hd, loopD_stop t 0 a b depth me st hd]
    | succ g =>
      by_cases hguard : a.q = [] ∨ b.q = [] ∨ me < depth
      · simp only [loopD, if_pos hguard]
      · simp only [loopD, if_neg hguard]
        rcases hE : expand t a b.visited st with ⟨res, st'⟩
        cases res with
        | error e => dsimp only
        | ok r =>
          obtain ⟨a', meetA⟩ := r
          cases meetA with
          | some m => dsimp only
          | none =>
            dsimp only
            rcases hE2 : expand t b a'.visited st' with ⟨res2, st''⟩
            cases res2 with
            | error e => dsimp only
            | ok r2 =>
              obtain ⟨b', meetB⟩ := r2
              cases meetB with
              | some m => dsimp only
              | none =>
                dsimp only
                exact ih g a' b' (depth + 1) me st'' (by omega) (by omega)

theorem expandSteps_meet_mem (t : Tmdb) (other : List Node) :
    ∀ (n : Nat) (s s' : Side) (st st' : CacheState) (m : Node),
      expandSteps t other n s st = (.ok (s', some m), st') → m ∈ other ∧ m ∈ s'.visited := by
  intro n
  induction n with
  | zero => intro s s' st st' m h; simp only [expandSteps] at h; simp at h
  | succ n ih =>
    intro s s' st st' m h
    obtain ⟨q, ps, vs⟩ := s
    cases q with
    | nil => simp only [expandSteps] at h; simp at h
    | cons node rest =>
      simp only [expandSteps] at h
      rcases hN : neighborsCached t st node with ⟨res, st1⟩
      rw [hN] at h
      cases res with
      | error e => simp at h
      | ok nbrs =>
        dsimp only at h
        rcases hV : visitNbrs node nbrs ⟨rest, ps, vs⟩ other with ⟨s1, meet1⟩
        rw [hV] at h
        cases meet1 with
        | some mm =>
          dsimp only at h
          injection h with hA hB
          injection hA with hA
          injection hA with h1 h2
          injection h2 with h2
          subst h1; subst h2
          exact visitNbrs_meet_mem node other nbrs ⟨rest, ps, vs⟩ _ _ hV
        | none =>
          dsimp only at h
          exact ih s1 s' st1 st' m h

theorem expandSteps_queue (t : Tmdb) (other : List Node) :
    ∀ (n : Nat) (s s' : Side) (st st' : CacheState) (meet : Option Node),
      expandSteps t other n s st = (.ok (s', meet), st') →
      ∃ d app, d ≤ n ∧ d ≤ s.q.length ∧ s'.q = s.q.drop d ++ app ∧
        (meet = none → d = min n s.q.length) := by
  intro n
  induction n with
  | zero =>
    intro s s' st st' meet h
    simp only [expandSteps] at h
    injection h with hA hB
    injection hA with hA
    injection hA with h1 h2
    subst h1
    exact ⟨0, [], by simp, by simp, by simp, fun _ => by simp⟩
  | succ n ih =>
    intro s s' st st' meet h
    obtain ⟨q, ps, vs⟩ := s
    cases q with
    | nil =>
      simp only [expandSteps] at h
      injection h with hA hB
      injection hA with hA
      injection hA with h1 h2
      subst h1
      exact ⟨0, [], by simp, by simp, by simp, fun _ => by simp⟩
    | cons node rest =>
      simp only [expandSteps] at h
      rcases hN : neighborsCached t st node with ⟨res, st1⟩
      rw [hN] at h
      cases res with
      | error e => simp at h
      | ok nbrs =>
        dsimp only at h
        rcases hV : visitNbrs node nbrs ⟨rest, ps, vs⟩ other with ⟨s1, meet1⟩
        rw [hV] at h
        obtain ⟨app1, happ1⟩ := visitNbrs_q_append node other nbrs ⟨rest, ps, vs⟩
        rw [hV] at happ1
        cases meet1 with
        | some mm =>
          dsimp only at h
          injection h with hA hB
          injection hA with hA
          injection hA with h1 h2
          subst h1
          refine ⟨1, app1, by omega, by simp, ?_, fun hc => by rw [← h2] at hc; cases hc⟩
          simpa using happ1
        | none =>
          dsimp only at h
          obtain ⟨d', app', hd'n, hd'len, hq', hmin⟩ := ih s1 s' st1 st' meet h
          simp only at happ1
          by_cases hcase : d' ≤ rest.length
          · refine ⟨d' + 1, app1 ++ app', by omega, by simp only [List.length_cons]; omega, ?_, ?_⟩
            · rw [hq', happ1]
              rw [List.drop_append_of_le_length hcase]
              simp [List.drop_succ_cons]
            · intro hm
              have := hmin hm
              have hlen : s1.q.length = rest.length + app1.length := by
                rw [happ1]; simp
              simp only [List.length_cons]
              omega
          · refine ⟨rest.length + 1, s'.q, by omega, by simp, by simp, ?_⟩
            intro hm
            have := hmin hm
            have hlen : s1.q.length = rest.length + app1.length := by
              rw [happ1]; simp
            simp only [List.length_cons]
            omega

theorem clookup_map_const (l : List Nat) (j : Nat) :
    clookup (l.map fun k => (k, ([] : List Nat))) j = if j ∈ l then some [] else none := by
  induction l with
  | nil => simp [clookup]
  | cons a rest ih =>
    simp only [List.map_cons, clookup, ih]
    by_cases h : j = a
    · simp [h]
    · simp [h]

theorem clookup_append_none (c1 c2 : Cache) (k : Nat) (h : clookup c1 k = none) :
    clookup (c1 ++ c2) k = clookup c2 k := by
  induction c1 with
  | nil => simp
  | cons e rest ih =>
    obtain ⟨a, v⟩ := e
    simp only [clookup] at h ⊢
    split at h
    · cases h
    · rename_i hk
      simp only [List.cons_append, clookup, if_neg hk]
      exact ih h

theorem cerase_append_none (c1 c2 : Cache) (k : Nat) (h : clookup c1 k = none) :
    cerase (c1 ++ c2) k = c1 ++ cerase c2 k := by
  induction c1 with
  | nil => simp
  | cons e rest ih =>
    obtain ⟨a, v⟩ := e
    simp only [clookup] at h
    split at h
    · cases h
    · rename_i hk
      simp only [List.cons_append, cerase, if_neg hk]
      simp only [List.append_eq, ih h]

theorem warmPersons_cons (t : Tmdb) (i : Nat) (rest : List Nat) (st : CacheState) :
    warmPersons t (i :: rest) st = warmPersons t rest (person_movies_cached t st i).2 := by
  simp [warmPersons]

theorem person_fresh_insert (st : CacheState) (k : Nat) (hc : clookup st.person k = none)
    (hlen : st.person.length < LRU_MAXSIZE) :
    (person_movies_cached tAll st k).2 = ⟨(k, []) :: st.person, st.movie⟩ := by
  simp [person_movies_cached, lruStep, hc, tAll, sortedDedup, Except.map]
  omega

theorem person_full_insert (st : CacheState) (k : Nat) (hc : clookup st.person k = none)
    (hlen : st.person.length = LRU_MAXSIZE) :
    (person_movies_cached tAll st k).2 = ⟨(k, []) :: st.person.dropLast, st.movie⟩ := by
  have hne : st.person ≠ [] := by
    intro h; rw [h] at hlen; simp [LRU_MAXSIZE] at hlen
  simp [person_movies_cached, lruStep, hc, tAll, sortedDedup, Except.map, hlen, LRU_MAXSIZE,
    List.dropLast_cons_of_ne_nil hne]

theorem person_hit (t : Tmdb) (st : CacheState) (k : Nat) (v : List Nat)
    (hc : clookup st.person k = some v) :
    person_movies_cached t st k = (.ok v, ⟨(k, v) :: cerase st.person k, st.movie⟩) := by
  simp [person_movies_cached, lruStep, hc]

theorem warmPersons_fresh : ∀ (ids : List Nat) (st : CacheState),
    ids.Nodup → (∀ i ∈ ids, clookup st.person i = none) →
    st.person.length + ids.length ≤ LRU_MAXSIZE →
    (warmPersons tAll ids st).person = ids.reverse.map (fun k => (k, [])) ++ st.person ∧
    (warmPersons tAll ids st).movie = st.movie := by
  intro ids
  induction ids with
  | nil => intro st _ _ _; simp [warmPersons]
  | cons i rest ih =>
    intro st hnd hfresh hlen
    rw [warmPersons_cons]
    rw [person_fresh_insert st i (hfresh i (by simp)) (by simp at hlen; omega)]
    obtain ⟨h1, h2⟩ := ih ⟨(i, []) :: st.person, st.movie⟩ (by exact hnd.of_cons)
      (by
        intro j hj
        simp only [clookup]
        have hji : j ≠ i := by
          rintro rfl
          exact (List.nodup_cons.mp hnd).1 hj
        rw [if_neg hji]
        exact hfresh j (by simp [hj]))
      (by simp at hlen ⊢; omega)
    refine ⟨?_, h2⟩
    rw [h1]
    simp


theorem clookup_append_some (c1 c2 : Cache) (k : Nat) (v : List Nat)
    (h : clookup c1 k = some v) : clookup (c1 ++ c2) k = some v := by
  induction c1 with
  | nil => simp [clookup] at h
  | cons e rest ih =>
    obtain ⟨a, w⟩ := e
    simp only [clookup] at h ⊢
    split at h
    · rename_i hk
      simp only [List.cons_append, clookup, if_pos hk]
      exact h
    · rename_i hk
      simp only [List.cons_append, clookup, if_neg hk]
      exact ih h

theorem warmPersons_append (t : Tmdb) (l1 l2 : List Nat) (st : CacheState) :
    warmPersons t (l1 ++ l2) st = warmPersons t l2 (warmPersons t l1 st) := by
  simp [warmPersons, List.foldl_append]

theorem movie_fresh_insert2 (st : CacheState) (k : Nat) (hc : clookup st.movie k = none)
    (hlen : st.movie.length < LRU_MAXSIZE) :
    (movie_cast_cached tAll st k).2.person = st.person ∧
    (movie_cast_cached tAll st k).2.movie = (k, []) :: st.movie := by
  refine ⟨rfl, ?_⟩
  simp [movie_cast_cached, lruStep, hc, tAll, sortedDedup, Except.map]
  omega

theorem clookup_map_const_some (l : List Nat) (j : Nat) (h : j ∈ l) :
    clookup (l.map fun k => (k, ([] : List Nat))) j = some [] := by
  rw [clookup_map_const, if_pos h]

theorem clookup_map_const_none (l : List Nat) (j : Nat) (h : j ∉ l) :
    clookup (l.map fun k => (k, ([] : List Nat))) j = none := by
  rw [clookup_map_const, if_neg h]

theorem c4warm_fill :
    (warmPersons tAll (List.range LRU_MAXSIZE) cache0).person =
      (List.range LRU_MAXSIZE).reverse.map (fun k => (k, [])) ++ cache0.person ∧
    (warmPersons tAll (List.range LRU_MAXSIZE) cache0).movie = cache0.movie :=
  warmPersons_fresh (List.range LRU_MAXSIZE) cache0 (List.nodup_range _) (fun i _ => rfl)
    (by rw [List.length_range, show (cache0.person : Cache).length = 0 from rfl]; omega)

theorem c4state_parts :
    c4state.person = (List.range LRU_MAXSIZE).reverse.map (fun k => (k, [])) ++ cache0.person ∧
    c4state.movie = [(0, [])] := by
  have hC : clookup (warmPersons tAll (List.range LRU_MAXSIZE) cache0).movie 0 = none := by
    rw [c4warm_fill.2]; rfl
  have hL : (warmPersons tAll (List.range LRU_MAXSIZE) cache0).movie.length < LRU_MAXSIZE := by
    rw [c4warm_fill.2]
    norm_num [cache0, LRU_MAXSIZE]
  obtain ⟨h1, h2⟩ := movie_fresh_insert2 (warmPersons tAll (List.range LRU_MAXSIZE) cache0) 0 hC hL
  unfold c4state
  exact ⟨h1.trans c4warm_fill.1, h2.trans (congrArg (List.cons (0, [])) c4warm_fill.2)⟩

theorem warmPersons_nil (t : Tmdb) (st : CacheState) : warmPersons t [] st = st := rfl

theorem c4_evict (k0 klast : Nat) (rest1 : List Nat)
    (hnd : ((k0 :: rest1) ++ [klast]).Nodup) (hlen : rest1.length + 1 = LRU_MAXSIZE) :
    clookup (warmPersons tAll ((k0 :: rest1) ++ [klast]) cache0).person k0 = none ∧
    ∀ j ∈ rest1 ++ [klast],
      clookup (warmPersons tAll ((k0 :: rest1) ++ [klast]) cache0).person j = some [] := by
  have hnd' := List.nodup_append.mp hnd
  have hnd1 : (k0 :: rest1).Nodup := hnd'.1
  have hk0rest : k0 ∉ rest1 := (List.nodup_cons.mp hnd1).1
  have hkl : klast ∉ k0 :: rest1 := by
    intro hmem
    exact hnd'.2.2 hmem (by simp)
  obtain ⟨hklk0, hklrest⟩ : klast ≠ k0 ∧ klast ∉ rest1 := by
    simpa [List.mem_cons, not_or] using hkl
  obtain ⟨hWp, hWm⟩ := warmPersons_fresh (k0 :: rest1) cache0 hnd1 (fun i _ => rfl)
    (by
      rw [show (cache0.person : Cache).length = 0 from rfl]
      simp only [List.length_cons]
      omega)
  have hWp' : (warmPersons tAll (k0 :: rest1) cache0).person
      = rest1.reverse.map (fun k => (k, [])) ++ [(k0, [])] := by
    rw [hWp, show (cache0.person : Cache) = [] from rfl, List.append_nil, List.reverse_cons,
      List.map_append]
    rfl
  have hCk : clookup (warmPersons tAll (k0 :: rest1) cache0).person klast = none := by
    rw [hWp', clookup_append_none _ _ _
      (clookup_map_const_none _ _ (by simpa [List.mem_reverse] using hklrest))]
    simp [clookup, hklk0]
  have hLen2 : (warmPersons tAll (k0 :: rest1) cache0).person.length = LRU_MAXSIZE := by
    rw [hWp']
    simp only [List.length_append, List.length_map, List.length_reverse, List.length_singleton]
    omega
  have hstep := person_full_insert (warmPersons tAll (k0 :: rest1) cache0) klast hCk hLen2
  have hfin : (warmPersons tAll ((k0 :: rest1) ++ [klast]) cache0).person
      = (klast, []) :: rest1.reverse.map (fun k => (k, [])) := by
    rw [warmPersons_append, warmPersons_cons, warmPersons_nil, hstep]
    dsimp only
    rw [hWp', List.dropLast_concat]
  constructor
  · rw [hfin]
    simp only [clookup, if_neg (Ne.symm hklk0)]
    exact clookup_map_const_none _ _ (by simpa [List.mem_reverse] using hk0rest)
  · intro j hj
    rw [hfin]
    rcases List.mem_append.mp hj with hj1 | hj2
    · have hjkl : ¬(j = klast) := by
        rintro rfl
        exact hklrest hj1
      simp only [clookup, if_neg hjkl]
      exact clookup_map_const_some _ _ (by simpa [List.mem_reverse] using hj1)
    · have : j = klast := by simpa using hj2
      subst this
      simp [clookup]

theorem c4_refresh (k0 k1 knew : Nat) (rest2 : List Nat)
    (hnd : (k0 :: k1 :: rest2).Nodup) (hlen : rest2.length + 2 = LRU_MAXSIZE)
    (hnew : knew ∉ k0 :: k1 :: rest2) :
    clookup (person_movies_cached tAll (person_movies_cached tAll
        (warmPersons tAll (k0 :: k1 :: rest2) cache0) k0).2 knew).2.person k0 = some [] ∧
    clookup (person_movies_cached tAll (person_movies_cached tAll
        (warmPersons tAll (k0 :: k1 :: rest2) cache0) k0).2 knew).2.person k1 = none := by
  have h01 : k0 ≠ k1 := by
    have := (List.nodup_cons.mp hnd).1
    simp [List.mem_cons, not_or] at this
    exact this.1
  have h0rest : k0 ∉ rest2 := by
    have := (List.nodup_cons.mp hnd).1
    simp [List.mem_cons, not_or] at this
    exact this.2
  have h1rest : k1 ∉ rest2 := (List.nodup_cons.mp (List.nodup_cons.mp hnd).2).1
  obtain ⟨hnew0, hnew1, hnewrest⟩ : knew ≠ k0 ∧ knew ≠ k1 ∧ knew ∉ rest2 := by
    simpa [List.mem_cons, not_or] using hnew
  obtain ⟨hWp, hWm⟩ := warmPersons_fresh (k0 :: k1 :: rest2) cache0 hnd (fun i _ => rfl)
    (by
      rw [show (cache0.person : Cache).length = 0 from rfl]
      simp only [List.length_cons]
      omega)
  have hWp' : (warmPersons tAll (k0 :: k1 :: rest2) cache0).person
      = rest2.reverse.map (fun k => (k, [])) ++ [(k1, []), (k0, [])] := by
    rw [hWp, show (cache0.person : Cache) = [] from rfl, List.append_nil, List.reverse_cons,
      List.reverse_cons, List.map_append, List.map_append, List.append_assoc]
    rfl
  have hhit : clookup (warmPersons tAll (k0 :: k1 :: rest2) cache0).person k0 = some [] := by
    rw [hWp', clookup_append_none _ _ _
      (clookup_map_const_none _ _ (by simpa [List.mem_reverse] using h0rest))]
    simp [clookup, h01]
  have hP2 := person_hit tAll (warmPersons tAll (k0 :: k1 :: rest2) cache0) k0 [] hhit
  have hcer : cerase (warmPersons tAll (k0 :: k1 :: rest2) cache0).person k0
      = rest2.reverse.map (fun k => (k, [])) ++ [(k1, [])] := by
    rw [hWp', cerase_append_none _ _ _
      (clookup_map_const_none _ _ (by simpa [List.mem_reverse] using h0rest))]
    simp [cerase, h01]
  have hCnew : clookup ((k0, []) ::
      (rest2.reverse.map (fun k => (k, [])) ++ [(k1, [])])) knew = none := by
    simp only [clookup, if_neg hnew0]
    rw [clookup_append_none _ _ _
      (clookup_map_const_none _ _ (by simpa [List.mem_reverse] using hnewrest))]
    simp [clookup, hnew1]
  have hL2 : ((k0, []) ::
      (rest2.reverse.map (fun k => (k, [])) ++ [(k1, [])]) : Cache).length = LRU_MAXSIZE := by
    simp only [List.length_cons, List.length_append, List.length_map, List.length_reverse,
      List.length_singleton, List.length_nil]
    omega
  have hstep := person_full_insert
    ⟨(k0, []) :: (rest2.reverse.map (fun k => (k, [])) ++ [(k1, [])]),
     (warmPersons tAll (k0 :: k1 :: rest2) cache0).movie⟩ knew hCnew hL2
  have hdrop : (((k0, []) :: (rest2.reverse.map (fun k => (k, [])) ++ [(k1, [])])) : Cache).dropLast
      = (k0, []) :: rest2.reverse.map (fun k => (k, [])) := by
    rw [List.dropLast_cons_of_ne_nil (by simp), List.dropLast_concat]
  rw [hP2]
  dsimp only
  rw [hcer, hstep]
  dsimp only
  rw [hdrop]
  constructor
  · simp only [clookup, if_neg (Ne.symm hnew0)]
    simp [clookup]
  · simp only [clookup, if_neg (Ne.symm hnew1), if_neg (Ne.symm h01)]
    exact clookup_map_const_none _ _ (by simpa [List.mem_reverse] using h1rest)

theorem clookup_cerase_none (c : Cache) (j k : Nat) (h : clookup c j = none) :
    clookup (cerase c k) j = none := by
  induction c with
  | nil => simpa [cerase] using h
  | cons e rest ih =>
    obtain ⟨a, v⟩ := e
    simp only [clookup] at h
    split at h
    · cases h
    · rename_i hj
      simp only [cerase]
      split
      · exact h
      · simp only [clookup, if_neg hj]
        exact ih h

theorem clookup_dropLast_none (c : Cache) (j : Nat) (h : clookup c j = none) :
    clookup c.dropLast j = none := by
  induction c with
  | nil => simp [clookup]
  | cons e rest ih =>
    obtain ⟨a, v⟩ := e
    simp only [clookup] at h
    split at h
    · cases h
    · rename_i hj
      cases rest with
      | nil => simp [clookup]
      | cons f rest2 =>
        rw [List.dropLast_cons_of_ne_nil (by simp)]
        simp only [clookup, if_neg hj]
        exact ih h

theorem nodeCached_person_step (t : Tmdb) (st : CacheState) (k : Nat) (n : Node) (e : TmdbError)
    (hf : nodeFetch t n = .error e) (hn : nodeCached st n = none) :
    nodeCached (person_movies_cached t st k).2 n = none := by
  obtain ⟨tag, id⟩ := n
  cases tag with
  | movie => exact hn
  | person =>
    simp only [nodeCached] at hn ⊢
    simp only [nodeFetch] at hf
    simp only [person_movies_cached, lruStep]
    rcases hcc : clookup st.person k with - | v
    · rcases hcompute : (t.personCredits k).map sortedDedup with e2 | v2
      · exact hn
      · have hik : id ≠ k := by
          rintro rfl
          rw [hf] at hcompute
          simp [Except.map] at hcompute
        dsimp only
        split
        · refine clookup_dropLast_none _ _ ?_
          simp only [clookup, if_neg hik]
          exact hn
        · simp only [clookup, if_neg hik]
          exact hn
    · have hik : id ≠ k := by
        rintro rfl
        rw [hcc] at hn
        cases hn
      dsimp only
      simp only [clookup, if_neg hik]
      exact clookup_cerase_none _ _ _ hn

theorem nodeCached_movie_step (t : Tmdb) (st : CacheState) (k : Nat) (n : Node) (e : TmdbError)
    (hf : nodeFetch t n = .error e) (hn : nodeCached st n = none) :
    nodeCached (movie_cast_cached t st k).2 n = none := by
  obtain ⟨tag, id⟩ := n
  cases tag with
  | person => exact hn
  | movie =>
    simp only [nodeCached] at hn ⊢
    simp only [nodeFetch] at hf
    simp only [movie_cast_cached, lruStep]
    rcases hcc : clookup st.movie k with - | v
    · rcases hcompute : (t.movieCredits k).map sortedDedup with e2 | v2
      · exact hn
      · have hik : id ≠ k := by
          rintro rfl
          rw [hf] at hcompute
          simp [Except.map] at hcompute
        dsimp only
        split
        · refine clookup_dropLast_none _ _ ?_
          simp only [clookup, if_neg hik]
          exact hn
        · simp only [clookup, if_neg hik]
          exact hn
    · have hik : id ≠ k := by
        rintro rfl
        rw [hcc] at hn
        cases hn
      dsimp only
      simp only [clookup, if_neg hik]
      exact clookup_cerase_none _ _ _ hn

theorem nodeCached_neighbors_step (t : Tmdb) (st : CacheState) (m n : Node) (e : TmdbError)
    (hf : nodeFetch t n = .error e) (hn : nodeCached st n = none) :
    nodeCached (neighborsCached t st m).2 n = none := by
  obtain ⟨tag, id⟩ := m
  cases tag with
  | person => exact nodeCached_person_step t st id n e hf hn
  | movie => exact nodeCached_movie_step t st id n e hf hn

theorem nodeCached_expandSteps (t : Tmdb) (other : List Node) (n : Node) (e : TmdbError)
    (hf : nodeFetch t n = .error e) :
    ∀ (steps : Nat) (s : Side) (st : CacheState), nodeCached st n = none →
      nodeCached (expandSteps t other steps s st).2 n = none := by
  intro steps
  induction steps with
  | zero => intro s st hn; exact hn
  | succ k ih =>
    intro s st hn
    obtain ⟨q, ps, vs⟩ := s
    cases q with
    | nil => exact hn
    | cons node rest =>
      simp only [expandSteps]
      rcases hN : neighborsCached t st node with ⟨res, st1⟩
      have hst1 : nodeCached st1 n = none := by
        have := nodeCached_neighbors_step t st node n e hf hn
        rw [hN] at this
        exact this
      cases res with
      | error e2 => exact hst1
      | ok nbrs =>
        dsimp only
        rcases hV : visitNbrs node nbrs ⟨rest, ps, vs⟩ other with ⟨s1, meet1⟩
        cases meet1 with
        | some mm => exact hst1
        | none => exact ih s1 st1 hst1

theorem nodeCached_loopD (t : Tmdb) (n : Node) (e : TmdbError)
    (hf : nodeFetch t n = .error e) :
    ∀ (fuel : Nat) (a b : Side) (depth me : Nat) (st : CacheState), nodeCached st n = none →
      nodeCached (loopD t fuel a b depth me st).2 n = none := by
  intro fuel
  induction fuel with
  | zero => intro a b depth me st hn; exact hn
  | succ f ih =>
    intro a b depth me st hn
    simp only [loopD]
    split
    · exact hn
    · rcases hE : expand t a b.visited st with ⟨res, st'⟩
      have hst' : nodeCached st' n = none := by
        have := nodeCached_expandSteps t b.visited n e hf a.q.length a st hn
        rw [show expandSteps t b.visited a.q.length a st = (res, st') from hE] at this
        exact this
      cases res with
      | error e2 => exact hst'
      | ok r =>
        obtain ⟨a', meetA⟩ := r
        cases meetA with
        | some m => exact hst'
        | none =>
          dsimp only
          rcases hE2 : expand t b a'.visited st' with ⟨res2, st''⟩
          have hst'' : nodeCached st'' n = none := by
            have := nodeCached_expandSteps t a'.visited n e hf b.q.length b st' hst'
            rw [show expandSteps t a'.visited b.q.length b st' = (res2, st'') from hE2] at this
            exact this
          cases res2 with
          | error e2 => exact hst''
          | ok r2 =>
            obtain ⟨b', meetB⟩ := r2
            cases meetB with
            | some m => exact hst''
            | none => exact ih a' b' (depth + 1) me st'' hst''

theorem neighborsCached_error (t : Tmdb) (st : CacheState) (n : Node) (e : TmdbError)
    (hf : nodeFetch t n = .error e) (hc : nodeCached st n = none) :
    neighborsCached t st n = (.error e, st) := by
  obtain ⟨tag, id⟩ := n
  cases tag with
  | person =>
    simp only [nodeFetch] at hf
    simp only [nodeCached] at hc
    simp [neighborsCached, person_movies_cached, lruStep, hc, hf, Except.map]
  | movie =>
    simp only [nodeFetch] at hf
    simp only [nodeCached] at hc
    simp [neighborsCached, movie_cast_cached, lruStep, hc, hf, Except.map]

theorem nodeCached_bidir (t : Tmdb) (st : CacheState) (n : Node) (e : TmdbError)
    (hf : nodeFetch t n = .error e) (hc : nodeCached st n = none)
    (source target k : Nat) :
    nodeCached (bidir_bfs_people t st source target k).2 n = none := by
  unfold bidir_bfs_people
  split
  · exact hc
  · exact nodeCached_loopD t n e hf (k + 1) (initSide source) (initSide target) 0 k st hc

theorem clookup_some_mem (c : Cache) (k : Nat) (v : List Nat) (h : clookup c k = some v) :
    (k, v) ∈ c := by
  induction c with
  | nil => simp [clookup] at h
  | cons e rest ih =>
    obtain ⟨a, w⟩ := e
    simp only [clookup] at h
    split at h
    · rename_i hk
      subst hk
      injection h with h
      subst h
      simp
    · simp [ih h]

theorem mem_cerase (c : Cache) (j : Nat) (p : Nat × List Nat) (h : p ∈ cerase c j) : p ∈ c := by
  induction c with
  | nil => simp [cerase] at h
  | cons e rest ih =>
    obtain ⟨a, w⟩ := e
    simp only [cerase] at h
    split at h
    · simp [h]
    · rcases List.mem_cons.mp h with h1 | h2
      · simp [h1]
      · simp [ih h2]

theorem lruStep_valid (f : Nat → Except TmdbError (List Nat)) (c : Cache) (k : Nat)
    (hv : ValidCache f c) :
    (lruStep LRU_MAXSIZE c (fun j => (f j).map sortedDedup) k).1 = (f k).map sortedDedup ∧
    ValidCache f (lruStep LRU_MAXSIZE c (fun j => (f j).map sortedDedup) k).2 := by
  simp only [lruStep]
  rcases hcc : clookup c k with - | v
  · rcases hcompute : (f k).map sortedDedup with e | v
    · exact ⟨rfl, hv⟩
    · dsimp only
      constructor
      · rfl
      · have hconsValid : ValidCache f ((k, v) :: c) := by
          intro p hp
          rcases List.mem_cons.mp hp with h1 | h2
          · subst h1
            exact hcompute
          · exact hv p h2
        split
        · intro p hp
          exact hconsValid p ((List.dropLast_sublist _).subset hp)
        · exact hconsValid
  · refine ⟨(hv (k, v) (clookup_some_mem c k v hcc)).symm, ?_⟩
    intro p hp
    rcases List.mem_cons.mp hp with h1 | h2
    · subst h1
      exact hv (k, v) (clookup_some_mem c k v hcc)
    · exact hv p (mem_cerase c k p h2)

theorem neighborsCached_valid (t : Tmdb) (st : CacheState) (m : Node) (hv : Valid t st) :
    (neighborsCached t st m).1 = nodeResult t m ∧ Valid t (neighborsCached t st m).2 := by
  obtain ⟨tag, id⟩ := m
  cases tag with
  | person =>
    obtain ⟨h1, h2⟩ := lruStep_valid t.personCredits st.person id hv.1
    exact ⟨by simp [neighborsCached, person_movies_cached, nodeResult, h1], ⟨h2, hv.2⟩⟩
  | movie =>
    obtain ⟨h1, h2⟩ := lruStep_valid t.movieCredits st.movie id hv.2
    exact ⟨by simp [neighborsCached, movie_cast_cached, nodeResult, h1], ⟨hv.1, h2⟩⟩

theorem expandSteps_pair (t : Tmdb) (other : List Node) :
    ∀ (n : Nat) (s : Side) (st1 st2 : CacheState), Valid t st1 → Valid t st2 →
      (expandSteps t other n s st1).1 = (expandSteps t other n s st2).1 ∧
      Valid t (expandSteps t other n s st1).2 ∧ Valid t (expandSteps t other n s st2).2 := by
  intro n
  induction n with
  | zero => intro s st1 st2 h1 h2; exact ⟨rfl, h1, h2⟩
  | succ k ih =>
    intro s st1 st2 h1 h2
    obtain ⟨q, ps, vs⟩ := s
    cases q with
    | nil => exact ⟨rfl, h1, h2⟩
    | cons node rest =>
      simp only [expandSteps]
      obtain ⟨hr1, hv1⟩ := neighborsCached_valid t st1 node h1
      obtain ⟨hr2, hv2⟩ := neighborsCached_valid t st2 node h2
      rcases hN1 : neighborsCached t st1 node with ⟨res1, st1'⟩
      rcases hN2 : neighborsCached t st2 node with ⟨res2, st2'⟩
      rw [hN1] at hr1 hv1
      rw [hN2] at hr2 hv2
      dsimp only at hr1 hr2 hv1 hv2
      have hres : res1 = res2 := hr1.trans hr2.symm
      subst hres
      cases res1 with
      | error e => exact ⟨rfl, hv1, hv2⟩
      | ok nbrs =>
        dsimp only
        rcases hV : visitNbrs node nbrs ⟨rest, ps, vs⟩ other with ⟨s1, meet1⟩
        cases meet1 with
        | some mm => exact ⟨rfl, hv1, hv2⟩
        | none => exact ih s1 st1' st2' hv1 hv2

theorem loopD_pair (t : Tmdb) :
    ∀ (fuel : Nat) (a b : Side) (depth me : Nat) (st1 st2 : CacheState),
      Valid t st1 → Valid t st2 →
      (loopD t fuel a b depth me st1).1 = (loopD t fuel a b depth me st2).1 ∧
      Valid t (loopD t fuel a b depth me st1).2 ∧
      Valid t (loopD t fuel a b depth me st2).2 := by
  intro fuel
  induction fuel with
  | zero => intro a b depth me st1 st2 h1 h2; exact ⟨rfl, h1, h2⟩
  | succ f ih =>
    intro a b depth me st1 st2 h1 h2
    simp only [loopD]
    split
    · exact ⟨rfl, h1, h2⟩
    · obtain ⟨hEr, hEv1, hEv2⟩ := expandSteps_pair t b.visited a.q.length a st1 st2 h1 h2
      rcases hE1 : expand t a b.visited st1 with ⟨res1, st1'⟩
      rcases hE2 : expand t a b.visited st2 with ⟨res2, st2'⟩
      rw [show expandSteps t b.visited a.q.length a st1 = (res1, st1') from hE1] at hEr hEv1
      rw [show expandSteps t b.visited a.q.length a st2 = (res2, st2') from hE2] at hEr hEv2
      dsimp only at hEr hEv1 hEv2
      subst hEr
      cases res1 with
      | error e => exact ⟨rfl, hEv1, hEv2⟩
      | ok r =>
        obtain ⟨a', meetA⟩ := r
        cases meetA with
        | some m => exact ⟨rfl, hEv1, hEv2⟩
        | none =>
          dsimp only
          obtain ⟨hFr, hFv1, hFv2⟩ := expandSteps_pair t a'.visited b.q.length b st1' st2' hEv1 hEv2
          rcases hF1 : expand t b a'.visited st1' with ⟨fres1, st1''⟩
          rcases hF2 : expand t b a'.visited st2' with ⟨fres2, st2''⟩
          rw [show expandSteps t a'.visited b.q.length b st1' = (fres1, st1'') from hF1] at hFr hFv1
          rw [show expandSteps t a'.visited b.q.length b st2' = (fres2, st2'') from hF2] at hFr hFv2
          dsimp only at hFr hFv1 hFv2
          subst hFr
          cases fres1 with
          | error e => exact ⟨rfl, hFv1, hFv2⟩
          | ok r2 =>
            obtain ⟨b', meetB⟩ := r2
            cases meetB with
            | some m => exact ⟨rfl, hFv1, hFv2⟩
            | none => exact ih a' b' (depth + 1) me st1'' st2'' hFv1 hFv2

theorem walk_zero (nb : Node → List Node) (x y : Node) (h : Walk nb x y 0) : x = y := by
  cases h
  rfl

theorem walk_trans (nb : Node → List Node) {x y z : Node} {m n : Nat}
    (h1 : Walk nb x y m) (h2 : Walk nb y z n) : Walk nb x z (m + n) := by
  induction h1 with
  | nil => simpa using h2
  | cons hmem hw ih =>
    have := Walk.cons hmem (ih h2)
    simpa [Nat.add_right_comm] using this

theorem walk_one (nb : Node → List Node) {x y : Node} (h : y ∈ nb x) : Walk nb x y 1 :=
  Walk.cons h (Walk.nil y)

theorem walk_decompose (nb : Node → List Node) :
    ∀ {n : Nat} {x z : Node}, Walk nb x z n → ∀ i, i ≤ n →
      ∃ v, Walk nb x v i ∧ Walk nb v z (n - i) := by
  intro n x z h
  induction h with
  | nil => intro i hi; interval_cases i; exact ⟨_, Walk.nil _, Walk.nil _⟩
  | cons hmem hw ih =>
    intro i hi
    cases i with
    | zero => exact ⟨_, Walk.nil _, Walk.cons hmem hw⟩
    | succ j =>
      obtain ⟨v, h1, h2⟩ := ih j (by omega)
      refine ⟨v, Walk.cons hmem h1, ?_⟩
      rw [Nat.succ_sub_succ]
      exact h2

theorem walk_reverse (nb : Node → List Node) (hs : Symm nb) :
    ∀ {n : Nat} {x y : Node}, Walk nb x y n → Walk nb y x n := by
  intro n x y h
  induction h with
  | nil => exact Walk.nil _
  | cons hmem hw ih =>
    have h1 := walk_one nb (hs _ _ hmem)
    simpa [Nat.add_comm] using walk_trans nb ih h1

theorem distEq_of_walk (nb : Node → List Node) (x v : Node) :
    ∀ n, Walk nb x v n → ∃ d, d ≤ n ∧ DistEq nb x v d := by
  intro n
  induction n using Nat.strong_induction_on with
  | _ n ih =>
    intro hw
    by_cases hall : ∀ m, m < n → ¬ Walk nb x v m
    · exact ⟨n, le_refl n, hw, hall⟩
    · push_neg at hall
      obtain ⟨m, hm, hwm⟩ := hall
      obtain ⟨d, hd, hde⟩ := ih m hm hwm
      exact ⟨d, by omega, hde⟩

theorem distEq_le (nb : Node → List Node) {x v : Node} {d r : Nat}
    (hde : DistEq nb x v d) (hle : DistLe nb x v r) : d ≤ r := by
  obtain ⟨m, hm, hw⟩ := hle
  by_contra hlt
  exact hde.2 m (by omega) hw

theorem distLe_of_distEq (nb : Node → List Node) {x v : Node} {d : Nat}
    (hde : DistEq nb x v d) : DistLe nb x v d :=
  ⟨d, le_refl d, hde.1⟩

theorem balls_disjoint_dist (nb : Node → List Node) (hs : Symm nb) {x y : Node} {d p q : Nat}
    (hdisj : ∀ v, DistLe nb x v p → DistLe nb y v q → False)
    (hde : DistEq nb x y d) : p + q + 1 ≤ d := by
  by_contra hlt
  push_neg at hlt
  have hd : d ≤ p + q := by omega
  obtain ⟨v, h1, h2⟩ := walk_decompose nb hde.1 (min d p) (by omega)
  refine hdisj v ⟨min d p, by omega, h1⟩ ⟨d - min d p, by omega, ?_⟩
  exact walk_reverse nb hs h2

theorem sphere_nonempty (nb : Node → List Node) {x z : Node} {d : Nat}
    (hde : DistEq nb x z d) (r : Nat) (hr : r ≤ d) :
    ∃ v, DistEq nb x v r ∧ Walk nb v z (d - r) := by
  obtain ⟨v, h1, h2⟩ := walk_decompose nb hde.1 r hr
  refine ⟨v, ⟨h1, ?_⟩, h2⟩
  intro m hm hwm
  exact hde.2 (m + (d - r)) (by omega) (walk_trans nb hwm h2)

theorem upWalk_to_walk (nb : Node → List Node) :
    ∀ (l : List Node) (rt : Node), UpWalk nb l → l.getLast? = some rt →
      ∀ v, l.head? = some v → Walk nb rt v (l.length - 1) := by
  intro l
  induction l with
  | nil => intro rt _ _ v h; cases h
  | cons a l2 ih =>
    intro rt hup hl v hh
    injection hh with hh
    subst hh
    cases l2 with
    | nil =>
      simp only [List.getLast?_singleton] at hl
      injection hl with hl
      subst hl
      exact Walk.nil _
    | cons b l3 =>
      have hup2 : UpWalk nb (b :: l3) := (List.chain'_cons.mp hup).2
      have hmem : a ∈ nb b := (List.chain'_cons.mp hup).1
      rw [List.getLast?_cons_cons] at hl
      have ihw := ih rt hup2 hl b rfl
      have := walk_trans nb ihw (walk_one nb hmem)
      simpa [Nat.succ_sub_one] using this

theorem distEq_unique (nb : Node → List Node) {x v : Node} {a b : Nat}
    (ha : DistEq nb x v a) (hb : DistEq nb x v b) : a = b := by
  by_contra hne
  rcases Nat.lt_or_ge a b with h | h
  · exact hb.2 a h ha.1
  · exact ha.2 b (by omega) hb.1

theorem pchain_fresh (pm : PMap) (k : Node) (x : Option Node) :
    ∀ (v : Node) (l : List Node), PChain pm v l → (∀ w ∈ l, w ≠ k) →
      PChain ((k, x) :: pm) v l := by
  intro v l h
  induction h with
  | root hnone =>
    rename_i w
    intro hne
    refine PChain.root ?_
    have hw : w ≠ k := hne w (by simp)
    simp [pget, hw, hnone]
  | step hsome htail ih =>
    rename_i w u l2
    intro hne
    have hw : w ≠ k := hne w (by simp)
    refine PChain.step ?_ (ih (fun z hz => hne z (by simp [hz])))
    simp [pget, hw, hsome]

theorem chainUp_of_pchain (pm : PMap) :
    ∀ (l : List Node) (v : Node) (fuel : Nat), PChain pm v l → l.length ≤ fuel + 1 →
      chainUp pm fuel v = l := by
  intro l
  induction l with
  | nil => intro v fuel h; cases h
  | cons a l2 ih =>
    intro v fuel h hlen
    cases h with
    | root hnone =>
      cases fuel with
      | zero => rfl
      | succ f => simp [chainUp, hnone]
    | step hsome htail =>
      cases fuel with
      | zero =>
        exfalso
        cases htail <;> simp at hlen
      | succ f =>
        simp only [chainUp, hsome]
        rw [ih _ f htail (by simpa using hlen)]

theorem pchain_ne_nil (pm : PMap) (v : Node) (l : List Node) (h : PChain pm v l) : l ≠ [] := by
  cases h <;> simp

theorem nodup_subset_length {l v : List Node} (hnd : l.Nodup) (hsub : ∀ x ∈ l, x ∈ v) :
    l.length ≤ v.length := by
  classical
  calc l.length = l.toFinset.card := (List.toFinset_card_of_nodup hnd).symm
  _ ≤ v.toFinset.card := by
      apply Finset.card_le_card
      intro x hx
      simp only [List.mem_toFinset] at hx ⊢
      exact hsub x hx
  _ ≤ v.length := v.toFinset_card_le

theorem pchain_head (pm : PMap) (v : Node) (l : List Node) (h : PChain pm v l) :
    l.head? = some v := by
  cases h <;> rfl

theorem reconstruct_spec (nb : Node → List Node) (hs : Symm nb) (pa pb : PMap)
    (va vb : List Node) (rootA rootB m : Node) (lA lB : List Node) (dA dB : Nat)
    (hkA : pa.map Prod.fst = va) (hkB : pb.map Prod.fst = vb)
    (hA : ChainSpec nb rootA m pa va lA dA) (hB : ChainSpec nb rootB m pb vb lB dB) :
    reconstruct pa pb m = lA.reverse ++ lB.tail ∧
    (reconstruct pa pb m).length = dA + dB + 1 ∧
    PathProps nb rootA rootB (reconstruct pa pb m) := by
  obtain ⟨hpcA, hheadA, hlastA, hupA, hsubA, hndA, hdeA, hlenA⟩ := hA
  obtain ⟨hpcB, hheadB, hlastB, hupB, hsubB, hndB, hdeB, hlenB⟩ := hB
  have hvaLen : va.length = pa.length := by rw [← hkA]; simp
  have hvbLen : vb.length = pb.length := by rw [← hkB]; simp
  have hfuelA : lA.length ≤ pa.length + 1 := by
    have := nodup_subset_length hndA hsubA
    omega
  have hchA : chainUp pa pa.length m = lA := chainUp_of_pchain pa lA m pa.length hpcA hfuelA
  have hArevHead : lA.reverse.head? = some rootA := by
    rw [List.head?_reverse]
    exact hlastA
  have hArevLast : lA.reverse.getLast? = some m := by
    rw [List.getLast?_reverse]
    exact hheadA
  have hArevNe : lA.reverse ≠ [] := by
    intro hcon
    rw [List.reverse_eq_nil_iff] at hcon
    subst hcon
    cases hheadA
  have hArevChain : List.Chain' (fun u v => v ∈ nb u) lA.reverse := by
    rw [List.chain'_reverse]
    exact hupA
  have heq : reconstruct pa pb m = lA.reverse ++ lB.tail := by
    cases hpcB with
    | root hnone =>
      simp only [reconstruct, hnone, hchA, List.tail_cons, List.append_nil]
    | step hsome htail =>
      rename_i u lB'
      have hndB' : lB'.Nodup := (List.nodup_cons.mp hndB).2
      have hsubB' : ∀ x ∈ lB', x ∈ vb := fun x hx => hsubB x (by simp [hx])
      have hfuelB : lB'.length ≤ pb.length + 1 := by
        have := nodup_subset_length hndB' hsubB'
        omega
      simp only [reconstruct, hsome, List.tail_cons]
      rw [chainUp_of_pchain pb lB' u pb.length htail hfuelB, hchA]
  refine ⟨heq, ?_, ?_⟩
  · rw [heq, List.length_append, List.length_reverse, hlenA]
    have : lB.tail.length = dB := by
      have := hlenB
      cases lB with
      | nil => cases hheadB
      | cons x xs => simp at this ⊢; omega
    omega
  · refine ⟨?_, ?_, ?_⟩
    · rw [heq, List.head?_append_of_ne_nil _ hArevNe]
      exact hArevHead
    · rw [heq]
      cases hpcB with
      | root hnone =>
        have : m = rootB := by
          have := hlastB
          simp only [List.getLast?_singleton] at this
          injection this
        simp only [List.tail_cons, List.append_nil, hArevLast, this]
      | step hsome htail =>
        rename_i u lB'
        have hne' : lB' ≠ [] := pchain_ne_nil pb u lB' htail
        rw [List.tail_cons, List.getLast?_append_of_ne_nil _ hne']
        rw [← hlastB]
        cases lB' with
        | nil => cases hne' rfl
        | cons y ys => rw [List.getLast?_cons_cons]
    · rw [heq, List.chain'_append]
      refine ⟨hArevChain, ?_, ?_⟩
      · cases hpcB with
        | root hnone => simp
        | step hsome htail =>
          rename_i u lB'
          rw [List.tail_cons]
          have : List.Chain' (fun x y => x ∈ nb y) lB' := (List.chain'_cons'.mp hupB).2
          exact List.Chain'.imp (fun x y hxy => hs y x hxy) this
      · intro x hx y hy
        rw [hArevLast] at hx
        simp only [Option.mem_def] at hx
        injection hx with hx
        subst hx
        cases hpcB with
        | root hnone => simp at hy
        | step hsome htail =>
          rename_i u lB'
          rw [List.tail_cons, pchain_head pb u lB' htail] at hy
          simp only [Option.mem_def] at hy
          injection hy with hy
          subst hy
          have hmem : m ∈ nb u := by
            have := (List.chain'_cons'.mp hupB).1
            exact this u (by rw [pchain_head pb u lB' htail]; rfl)
          exact hs u m hmem

theorem visitW (nb : Node → List Node) (other : List Node) (root : Node) (r : Nat)
    (u : Node) (hu : DistEq nb root u r) :
    ∀ (nbrs : List Node), (∀ x ∈ nbrs, x ∈ nb u) →
    ∀ (q : List Node) (ps : PMap) (vs : List Node),
    (∀ v ∈ vs, DistLe nb root v (r + 1)) →
    (∀ v, DistLe nb root v r → v ∈ vs) →
    ps.map Prod.fst = vs →
    vs.Nodup →
    pget ps root = none →
    (∀ v ∈ vs, ∃ l d, ChainSpec nb root v ps vs l d) →
    u ∈ vs →
    ∀ s' meet, visitNbrs u nbrs ⟨q, ps, vs⟩ other = (s', meet) →
    ∃ ins,
      s'.q = q ++ ins ∧
      (∀ v, v ∈ s'.visited ↔ (v ∈ vs ∨ v ∈ ins)) ∧
      (∀ v ∈ ins, v ∈ nb u ∧ DistEq nb root v (r + 1)) ∧
      (∀ v ∈ s'.visited, DistLe nb root v (r + 1)) ∧
      (∀ v, DistLe nb root v r → v ∈ s'.visited) ∧
      s'.parents.map Prod.fst = s'.visited ∧
      s'.visited.Nodup ∧
      pget s'.parents root = none ∧
      (∀ v ∈ s'.visited, ∃ l d, ChainSpec nb root v s'.parents s'.visited l d) ∧
      u ∈ s'.visited ∧
      (∀ m, meet = some m → m ∈ other ∧ m ∈ ins) ∧
      (meet = none → (∀ x ∈ nbrs, x ∈ s'.visited) ∧ ∀ v ∈ ins, v ∉ other) := by
  intro nbrs
  induction nbrs with
  | nil =>
    intro hsub q ps vs hLe hBall hkeys hnd hroot hchains huvs s' meet hvn
    simp only [visitNbrs] at hvn
    injection hvn with h1 h2
    subst h1
    refine ⟨[], by simp, by simp, by simp, hLe, hBall, hkeys, hnd, hroot, hchains, huvs,
      ?_, ?_⟩
    · intro m hm
      rw [← h2] at hm
      cases hm
    · intro _
      exact ⟨by simp, by simp⟩
  | cons nxt rest ih =>
    intro hsub q ps vs hLe hBall hkeys hnd hroot hchains huvs s' meet hvn
    simp only [visitNbrs] at hvn
    by_cases hmemvs : nxt ∈ vs
    · rw [if_pos hmemvs] at hvn
      obtain ⟨ins, hq, hbic, hins, hLe', hBall', hkeys', hnd', hroot', hchains', hu', hmeet, hnone⟩ :=
        ih (fun x hx => hsub x (by simp [hx])) q ps vs hLe hBall hkeys hnd hroot hchains huvs
          s' meet hvn
      refine ⟨ins, hq, hbic, hins, hLe', hBall', hkeys', hnd', hroot', hchains', hu', hmeet, ?_⟩
      intro hmn
      obtain ⟨hx, hio⟩ := hnone hmn
      refine ⟨?_, hio⟩
      intro x hx2
      rcases List.mem_cons.mp hx2 with h | h
      · subst h
        exact (hbic x).mpr (Or.inl hmemvs)
      · exact hx x h
    · rw [if_neg hmemvs] at hvn
      -- establish invariant for the extended state
      have hrootvs : root ∈ vs := hBall root ⟨0, by omega, Walk.nil root⟩
      have hnxtroot : nxt ≠ root := fun h => hmemvs (h ▸ hrootvs)
      have hnxtnb : nxt ∈ nb u := hsub nxt (by simp)
      have hnxtD : DistEq nb root nxt (r + 1) := by
        constructor
        · have : Walk nb root nxt (r + 1) := by
            have := walk_trans nb hu.1 (walk_one nb hnxtnb)
            exact this
          exact this
        · intro m hm hwm
          exact hmemvs (hBall nxt ⟨m, by omega, hwm⟩)
      obtain ⟨lu, du, hpc_u, hhead_u, hlast_u, hup_u, hsub_u, hnd_u, hde_u, hlen_u⟩ := hchains u huvs
      have hdu : du = r := distEq_unique nb hde_u hu
      rw [hdu] at hde_u hlen_u
      have hfresh : ∀ w ∈ lu, w ≠ nxt := fun w hw h => hmemvs (h ▸ hsub_u w hw)
      have hpc_nxt : PChain ((nxt, some u) :: ps) nxt (nxt :: lu) := by
        refine PChain.step ?_ (pchain_fresh ps nxt (some u) u lu hpc_u hfresh)
        simp [pget]
      have hLe1 : ∀ v ∈ nxt :: vs, DistLe nb root v (r + 1) := by
        intro v hv
        rcases List.mem_cons.mp hv with h | h
        · subst h
          exact distLe_of_distEq nb hnxtD
        · exact hLe v h
      have hBall1 : ∀ v, DistLe nb root v r → v ∈ nxt :: vs := fun v hv => by
        simp [hBall v hv]
      have hkeys1 : ((nxt, some u) :: ps).map Prod.fst = nxt :: vs := by
        simp [hkeys]
      have hnd1 : (nxt :: vs).Nodup := List.nodup_cons.mpr ⟨hmemvs, hnd⟩
      have hroot1 : pget ((nxt, some u) :: ps) root = none := by
        simp only [pget, if_neg (Ne.symm (Ne.symm hnxtroot)).symm]
        exact hroot
      have hchains1 : ∀ v ∈ nxt :: vs, ∃ l d,
          ChainSpec nb root v ((nxt, some u) :: ps) (nxt :: vs) l d := by
        intro v hv
        rcases List.mem_cons.mp hv with h | h
        · subst h
          refine ⟨v :: lu, r + 1, hpc_nxt, rfl, ?_, ?_, ?_, ?_, hnxtD, by simp [hlen_u]⟩
          · cases lu with
            | nil => cases hpc_u
            | cons a l2 => rw [List.getLast?_cons_cons]; exact hlast_u
          · refine List.chain'_cons'.mpr ⟨?_, hup_u⟩
            intro y hy
            rw [hhead_u] at hy
            injection hy with hy
            subst hy
            exact hnxtnb
          · intro x hx
            rcases List.mem_cons.mp hx with h2 | h2
            · simp [h2]
            · simp [hsub_u x h2]
          · exact List.nodup_cons.mpr ⟨fun h => hmemvs (hsub_u _ h), hnd_u⟩
        · obtain ⟨l, d, hpc, hh, hl, hup2, hss, hnd2, hde2, hlen2⟩ := hchains v h
          refine ⟨l, d, pchain_fresh ps nxt (some u) v l hpc
            (fun w hw hc => hmemvs (hc ▸ hss w hw)), hh, hl, hup2, ?_, hnd2, hde2, hlen2⟩
          intro x hx
          simp [hss x hx]
      have huvs1 : u ∈ nxt :: vs := by simp [huvs]
      by_cases hmemo : nxt ∈ other
      · rw [if_pos hmemo] at hvn
        injection hvn with h1 h2
        subst h1
        refine ⟨[nxt], by simp, ?_, ?_, hLe1, hBall1, hkeys1, hnd1, hroot1, hchains1, huvs1,
          ?_, ?_⟩
        · intro v
          constructor
          · intro hv
            rcases List.mem_cons.mp hv with h | h
            · simp [h]
            · simp [h]
          · intro hv
            rcases hv with h | h
            · simp [h]
            · simp only [List.mem_singleton] at h
              simp [h]
        · intro v hv
          simp only [List.mem_singleton] at hv
          subst hv
          exact ⟨hnxtnb, hnxtD⟩
        · intro m hm
          rw [← h2] at hm
          injection hm with hm
          subst hm
          exact ⟨hmemo, by simp⟩
        · intro hmn
          rw [← h2] at hmn
          cases hmn
      · rw [if_neg hmemo] at hvn
        obtain ⟨ins, hq, hbic, hins, hLe', hBall', hkeys', hnd', hroot', hchains', hu', hmeet,
            hnone⟩ :=
          ih (fun x hx => hsub x (by simp [hx])) (q ++ [nxt]) ((nxt, some u) :: ps) (nxt :: vs)
            hLe1 hBall1 hkeys1 hnd1 hroot1 hchains1 huvs1 s' meet hvn
        refine ⟨nxt :: ins, ?_, ?_, ?_, hLe', hBall', hkeys', hnd', hroot', hchains', hu',
          ?_, ?_⟩
        · rw [hq]
          simp
        · intro v
          rw [hbic v]
          constructor
          · intro hv
            rcases hv with h | h
            · rcases List.mem_cons.mp h with h2 | h2
              · simp [h2]
              · simp [h2]
            · simp [h]
          · intro hv
            rcases hv with h | h
            · simp [h]
            · rcases List.mem_cons.mp h with h2 | h2
              · simp [h2]
              · simp [h2]
        · intro v hv
          rcases List.mem_cons.mp hv with h | h
          · subst h
            exact ⟨hnxtnb, hnxtD⟩
          · exact hins v h
        · intro m hm
          obtain ⟨h1, h2⟩ := hmeet m hm
          exact ⟨h1, by simp [h2]⟩
        · intro hmn
          obtain ⟨hx, hio⟩ := hnone hmn
          refine ⟨?_, ?_⟩
          · intro x hx2
            rcases List.mem_cons.mp hx2 with h | h
            · subst h
              exact (hbic x).mpr (Or.inl (by simp))
            · exact hx x h
          · intro v hv
            rcases List.mem_cons.mp hv with h | h
            · subst h
              exact hmemo
            · exact hio v h

theorem distEq_not_le (nb : Node → List Node) {root v : Node} {r : Nat}
    (h : DistEq nb root v (r + 1)) : ¬ DistLe nb root v r := by
  intro hle
  have := distEq_le nb h hle
  omega

theorem expandW (nb : Node → List Node) (other : List Node) (root : Node) (r : Nat) :
    ∀ (front app : List Node) (ps : PMap) (vs : List Node),
    (∀ v ∈ front, DistEq nb root v r) →
    (∀ v ∈ front, v ∈ vs) →
    (∀ v ∈ app, DistEq nb root v (r + 1)) →
    (∀ v ∈ app, v ∉ other) →
    (∀ v, v ∈ vs ↔ (DistLe nb root v r ∨ v ∈ app)) →
    (∀ v, DistEq nb root v (r + 1) → (v ∈ app ∨ ∃ u ∈ front, v ∈ nb u)) →
    ps.map Prod.fst = vs →
    vs.Nodup →
    pget ps root = none →
    (∀ v ∈ vs, ∃ l d, ChainSpec nb root v ps vs l d) →
    ∀ s' meet, expandStepsP nb other front.length ⟨front ++ app, ps, vs⟩ = (s', meet) →
    (s'.parents.map Prod.fst = s'.visited ∧ s'.visited.Nodup ∧ pget s'.parents root = none ∧
     (∀ v ∈ s'.visited, ∃ l d, ChainSpec nb root v s'.parents s'.visited l d) ∧
     (∀ v ∈ s'.visited, DistLe nb root v (r + 1)) ∧
     (∀ v, DistLe nb root v r → v ∈ s'.visited)) ∧
    (∀ m, meet = some m → m ∈ other ∧ m ∈ s'.visited ∧ DistEq nb root m (r + 1)) ∧
    (meet = none →
      (∀ v, v ∈ s'.q ↔ DistEq nb root v (r + 1)) ∧
      (∀ v, v ∈ s'.visited ↔ DistLe nb root v (r + 1)) ∧
      (∀ v ∈ s'.q, v ∉ other)) := by
  intro front
  induction front with
  | nil =>
    intro app ps vs hfront hfrontvs happ hmiss hvs hcover hkeys hnd hroot hchains s' meet hex
    simp only [List.length_nil, List.nil_append, expandStepsP] at hex
    injection hex with h1 h2
    subst h1
    have hLe1 : ∀ v ∈ vs, DistLe nb root v (r + 1) := by
      intro v hv
      rcases (hvs v).mp hv with h | h
      · obtain ⟨m, hm, hw⟩ := h
        exact ⟨m, by omega, hw⟩
      · exact distLe_of_distEq nb (happ v h)
    have hBall1 : ∀ v, DistLe nb root v r → v ∈ vs := fun v hv => (hvs v).mpr (Or.inl hv)
    refine ⟨⟨hkeys, hnd, hroot, hchains, hLe1, hBall1⟩, ?_, ?_⟩
    · intro m hm
      rw [← h2] at hm
      cases hm
    · intro _
      refine ⟨?_, ?_, fun v hv => hmiss v hv⟩
      · intro v
        constructor
        · intro hv
          exact happ v hv
        · intro hv
          rcases hcover v hv with h | h
          · exact h
          · obtain ⟨u, hu, -⟩ := h
            cases hu
      · intro v
        constructor
        · intro hv
          exact hLe1 v hv
        · intro hv
          obtain ⟨m, hm, hw⟩ := hv
          obtain ⟨d, hd, hde⟩ := distEq_of_walk nb root v m hw
          rcases Nat.lt_or_ge d (r + 1) with hlt | hge
          · exact (hvs v).mpr (Or.inl ⟨d, by omega, hde.1⟩)
          · have hdr : d = r + 1 := by omega
            subst hdr
            rcases hcover v hde with h | h
            · exact (hvs v).mpr (Or.inr h)
            · obtain ⟨u, hu, -⟩ := h
              cases hu
  | cons u front' ih =>
    intro app ps vs hfront hfrontvs happ hmiss hvs hcover hkeys hnd hroot hchains s' meet hex
    have hu : DistEq nb root u r := hfront u (by simp)
    have huvs : u ∈ vs := hfrontvs u (by simp)
    have hLe1 : ∀ v ∈ vs, DistLe nb root v (r + 1) := by
      intro v hv
      rcases (hvs v).mp hv with h | h
      · obtain ⟨m, hm, hw⟩ := h
        exact ⟨m, by omega, hw⟩
      · exact distLe_of_distEq nb (happ v h)
    have hBall1 : ∀ v, DistLe nb root v r → v ∈ vs := fun v hv => (hvs v).mpr (Or.inl hv)
    simp only [List.length_cons, List.cons_append, List.append_eq, expandStepsP] at hex
    rcases hV : visitNbrs u (nb u) ⟨front' ++ app, ps, vs⟩ other with ⟨s1, meet1⟩
    rw [hV] at hex
    obtain ⟨ins, hq1, hbic, hins, hLe', hBall', hkeys', hnd', hroot', hchains', hu', hmeet,
        hnonec⟩ :=
      visitW nb other root r u hu (nb u) (fun x hx => hx) (front' ++ app) ps vs
        hLe1 hBall1 hkeys hnd hroot hchains huvs s1 meet1 hV
    cases meet1 with
    | some m =>
      dsimp only at hex
      injection hex with h1 h2
      subst h1
      obtain ⟨hmo, hmins⟩ := hmeet m rfl
      refine ⟨⟨hkeys', hnd', hroot', hchains', hLe', hBall'⟩, ?_, ?_⟩
      · intro m2 hm2
        rw [← h2] at hm2
        injection hm2 with hm2
        subst hm2
        exact ⟨hmo, (hbic m).mpr (Or.inr hmins), (hins m hmins).2⟩
      · intro hmn
        rw [← h2] at hmn
        cases hmn
    | none =>
      dsimp only at hex
      obtain ⟨hxall, hinso⟩ := hnonec rfl
      -- rebuild the invariant on s1 for the recursive call
      obtain ⟨q1, ps1, vs1⟩ := s1
      simp only at hq1 hbic hLe' hBall' hkeys' hnd' hroot' hchains' hu'
      rw [hq1] at hex
      rw [List.append_assoc] at hex
      refine ih (app ++ ins) ps1 vs1 (fun v hv => hfront v (by simp [hv]))
        (fun v hv => (hbic v).mpr (Or.inl (hfrontvs v (by simp [hv]))))
        ?_ ?_ ?_ ?_ hkeys' hnd' hroot' hchains' s' meet hex
      · intro v hv
        rcases List.mem_append.mp hv with h | h
        · exact happ v h
        · exact (hins v h).2
      · intro v hv
        rcases List.mem_append.mp hv with h | h
        · exact hmiss v h
        · exact hinso v h
      · intro v
        rw [hbic v]
        constructor
        · intro hv
          rcases hv with h | h
          · rcases (hvs v).mp h with h2 | h2
            · exact Or.inl h2
            · exact Or.inr (List.mem_append.mpr (Or.inl h2))
          · exact Or.inr (List.mem_append.mpr (Or.inr h))
        · intro hv
          rcases hv with h | h
          · exact Or.inl ((hvs v).mpr (Or.inl h))
          · rcases List.mem_append.mp h with h2 | h2
            · exact Or.inl ((hvs v).mpr (Or.inr h2))
            · exact Or.inr h2
      · intro v hv
        rcases hcover v hv with h | h
        · exact Or.inl (List.mem_append.mpr (Or.inl h))
        · obtain ⟨u0, hu0, hvnb⟩ := h
          rcases List.mem_cons.mp hu0 with h2 | h2
          · subst h2
            have hvin : v ∈ vs1 := hxall v hvnb
            rcases (hbic v).mp hvin with h3 | h3
            · rcases (hvs v).mp h3 with h4 | h4
              · exact absurd h4 (distEq_not_le nb hv)
              · exact Or.inl (List.mem_append.mpr (Or.inl h4))
            · exact Or.inl (List.mem_append.mpr (Or.inr h3))
          · exact Or.inr ⟨u0, h2, hvnb⟩

theorem walk_one_inv (nb : Node → List Node) {u v : Node} (h : Walk nb u v 1) : v ∈ nb u := by
  cases h with
  | cons hmem hw =>
    have hz := walk_zero nb _ _ hw
    subst hz
    exact hmem

theorem distEq_symm (nb : Node → List Node) (hs : Symm nb) {x y : Node} {d : Nat}
    (h : DistEq nb x y d) : DistEq nb y x d := by
  refine ⟨walk_reverse nb hs h.1, ?_⟩
  intro m hm hw
  exact h.2 m hm (walk_reverse nb hs hw)

theorem sphere_cover (nb : Node → List Node) {root v : Node} {r : Nat}
    (h : DistEq nb root v (r + 1)) : ∃ u, DistEq nb root u r ∧ v ∈ nb u := by
  obtain ⟨u, h1, h2⟩ := walk_decompose nb h.1 r (by omega)
  have h2' : Walk nb u v 1 := by
    have he : r + 1 - r = 1 := by omega
    rwa [he] at h2
  have hv : v ∈ nb u := walk_one_inv nb h2'
  obtain ⟨e, he, hdeq⟩ := distEq_of_walk nb root u r h1
  have her : e = r := by
    by_contra hne
    have hlt : e < r := by omega
    exact h.2 (e + 1) (by omega) (walk_trans nb hdeq.1 (walk_one nb hv))
  subst her
  exact ⟨u, hdeq, hv⟩

theorem expandPW (nb : Node → List Node) (other : List Node) (root : Node) (r : Nat)
    (s : Side) (hinv : SideInv nb root r s) (s' : Side) (meet : Option Node)
    (hex : expandP nb s other = (s', meet)) :
    (s'.parents.map Prod.fst = s'.visited ∧ s'.visited.Nodup ∧ pget s'.parents root = none ∧
     (∀ v ∈ s'.visited, ∃ l d, ChainSpec nb root v s'.parents s'.visited l d) ∧
     (∀ v ∈ s'.visited, DistLe nb root v (r + 1)) ∧
     (∀ v, DistLe nb root v r → v ∈ s'.visited)) ∧
    (∀ m, meet = some m → m ∈ other ∧ m ∈ s'.visited ∧ DistEq nb root m (r + 1)) ∧
    (meet = none → SideInv nb root (r + 1) s' ∧ ∀ v ∈ s'.q, v ∉ other) := by
  obtain ⟨hq, hv, hkeys, hnd, hroot, hchains⟩ := hinv
  obtain ⟨q, ps, vs⟩ := s
  simp only at hq hv hkeys hnd hroot hchains
  simp only [expandP] at hex
  have hex' : expandStepsP nb other q.length ⟨q ++ [], ps, vs⟩ = (s', meet) := by
    rwa [List.append_nil]
  have hvs2 : ∀ v, v ∈ vs ↔ (DistLe nb root v r ∨ v ∈ ([] : List Node)) := by
    intro v
    constructor
    · intro h
      exact Or.inl ((hv v).mp h)
    · rintro (h | h)
      · exact (hv v).mpr h
      · cases h
  have hcover2 : ∀ v, DistEq nb root v (r + 1) → (v ∈ ([] : List Node) ∨ ∃ u ∈ q, v ∈ nb u) := by
    intro v hde
    obtain ⟨u, hu, hmem⟩ := sphere_cover nb hde
    exact Or.inr ⟨u, (hq u).mpr hu, hmem⟩
  obtain ⟨hcommon, hsome, hnone⟩ := expandW nb other root r q [] ps vs
    (fun v hv' => (hq v).mp hv')
    (fun v hv' => (hv v).mpr (distLe_of_distEq nb ((hq v).mp hv')))
    (fun v hv' => absurd hv' (List.not_mem_nil v))
    (fun v hv' => absurd hv' (List.not_mem_nil v))
    hvs2 hcover2 hkeys hnd hroot hchains s' meet hex'
  refine ⟨hcommon, hsome, ?_⟩
  intro hmn
  obtain ⟨hq', hv', hno⟩ := hnone hmn
  obtain ⟨hk', hnd', hroot', hchains', -, -⟩ := hcommon
  exact ⟨⟨hq', hv', hk', hnd', hroot', hchains'⟩, hno⟩

theorem initSide_inv (nb : Node → List Node) (x : Nat) :
    SideInv nb (Tag.person, x) 0 (initSide x) := by
  refine ⟨?_, ?_, rfl, by simp [initSide], by simp [initSide, pget], ?_⟩
  · intro v
    simp only [initSide, List.mem_singleton]
    constructor
    · intro h
      subst h
      exact ⟨Walk.nil _, fun m hm => absurd hm (Nat.not_lt_zero m)⟩
    · intro h
      exact (walk_zero nb _ _ h.1).symm
  · intro v
    simp only [initSide, List.mem_singleton]
    constructor
    · intro h
      subst h
      exact ⟨0, le_refl 0, Walk.nil _⟩
    · intro h
      obtain ⟨m, hm, hw⟩ := h
      have hm0 : m = 0 := by omega
      subst hm0
      exact (walk_zero nb _ _ hw).symm
  · intro v hvm
    simp only [initSide, List.mem_singleton] at hvm
    subst hvm
    refine ⟨[(Tag.person, x)], 0, PChain.root (by simp [initSide, pget]), rfl, rfl, List.chain'_singleton _, ?_, ?_, ?_, rfl⟩
    · intro z hz
      simpa [initSide] using hz
    · simp
    · exact ⟨Walk.nil _, fun m hm => absurd hm (Nat.not_lt_zero m)⟩

theorem loopP_sound (nb : Node → List Node) (hs : Symm nb) (rootA rootB : Node) (maxEdges : Nat) :
    ∀ (fuel r : Nat) (a b : Side) (p : List Node),
    SideInv nb rootA r a → SideInv nb rootB r b →
    loopP nb fuel a b r maxEdges = some p →
    PathProps nb rootA rootB p := by
  intro fuel
  induction fuel with
  | zero =>
    intro r a b p hA hB hl
    simp only [loopP] at hl
    exact Option.noConfusion hl
  | succ f ih =>
    intro r a b p hA hB hl
    rw [loopP] at hl
    split at hl
    · exact Option.noConfusion hl
    · rcases hEA : expandP nb a b.visited with ⟨a', meetA⟩
      rw [hEA] at hl
      obtain ⟨hcomA, hsomeA, hnoneA⟩ := expandPW nb b.visited rootA r a hA a' meetA hEA
      cases meetA with
      | some m =>
        dsimp only at hl
        injection hl with hl
        subst hl
        obtain ⟨hmo, hmv, hmd⟩ := hsomeA m rfl
        obtain ⟨hkA', -, -, hchainsA', -, -⟩ := hcomA
        obtain ⟨lA, dA, hcsA⟩ := hchainsA' m hmv
        obtain ⟨lB, dB, hcsB⟩ := hB.2.2.2.2.2 m hmo
        exact (reconstruct_spec nb hs a'.parents b.parents a'.visited b.visited rootA rootB m
          lA lB dA dB hkA' hB.2.2.1 hcsA hcsB).2.2
      | none =>
        dsimp only at hl
        obtain ⟨hA', hdisjA⟩ := hnoneA rfl
        rcases hEB : expandP nb b a'.visited with ⟨b', meetB⟩
        rw [hEB] at hl
        obtain ⟨hcomB, hsomeB, hnoneB⟩ := expandPW nb a'.visited rootB r b hB b' meetB hEB
        cases meetB with
        | some m =>
          dsimp only at hl
          injection hl with hl
          subst hl
          obtain ⟨hmo, hmv, hmd⟩ := hsomeB m rfl
          obtain ⟨hkB', -, -, hchainsB', -, -⟩ := hcomB
          obtain ⟨lB, dB, hcsB⟩ := hchainsB' m hmv
          obtain ⟨lA, dA, hcsA⟩ := hA'.2.2.2.2.2 m hmo
          exact (reconstruct_spec nb hs a'.parents b'.parents a'.visited b'.visited rootA rootB m
            lA lB dA dB hA'.2.2.1 hkB' hcsA hcsB).2.2
        | none =>
          dsimp only at hl
          obtain ⟨hB', hdisjB⟩ := hnoneB rfl
          exact ih (r + 1) a' b' p hA' hB' hl

theorem loopP_complete (nb : Node → List Node) (hs : Symm nb) (rootA rootB : Node)
    (d maxEdges : Nat) (hd : DistEq nb rootA rootB d) (hdle : d ≤ maxEdges) :
    ∀ (fuel r : Nat) (a b : Side), maxEdges + 1 ≤ fuel + r →
    SideInv nb rootA r a → SideInv nb rootB r b →
    (∀ v, DistLe nb rootA v r → DistLe nb rootB v r → False) →
    ∃ p, loopP nb fuel a b r maxEdges = some p ∧ p.length = d + 1 := by
  intro fuel
  induction fuel with
  | zero =>
    intro r a b hfr hA hB hdisj
    exfalso
    have h2r := balls_disjoint_dist nb hs hdisj hd
    omega
  | succ f ih =>
    intro r a b hfr hA hB hdisj
    have h2r : r + r + 1 ≤ d := balls_disjoint_dist nb hs hdisj hd
    have haq : a.q ≠ [] := by
      obtain ⟨v, hvd, -⟩ := sphere_nonempty nb hd r (by omega)
      intro hcon
      have hm := (hA.1 v).mpr hvd
      rw [hcon] at hm
      cases hm
    have hbq : b.q ≠ [] := by
      obtain ⟨v, hvd, -⟩ := sphere_nonempty nb (distEq_symm nb hs hd) r (by omega)
      intro hcon
      have hm := (hB.1 v).mpr hvd
      rw [hcon] at hm
      cases hm
    have hguard : ¬ (a.q = [] ∨ b.q = [] ∨ maxEdges < r) := by
      push_neg
      exact ⟨haq, hbq, by omega⟩
    rcases hEA : expandP nb a b.visited with ⟨a', meetA⟩
    obtain ⟨hcomA, hsomeA, hnoneA⟩ := expandPW nb b.visited rootA r a hA a' meetA hEA
    cases meetA with
    | some m =>
      obtain ⟨hmo, hmv, hmd⟩ := hsomeA m rfl
      obtain ⟨hkA', -, -, hchainsA', -, -⟩ := hcomA
      obtain ⟨lA, dA, hcsA⟩ := hchainsA' m hmv
      obtain ⟨lB, dB, hcsB⟩ := hB.2.2.2.2.2 m hmo
      have hdA : dA = r + 1 := distEq_unique nb hcsA.2.2.2.2.2.2.1 hmd
      have hmB : DistLe nb rootB m r := (hB.2.1 m).mp hmo
      have hdBle : dB ≤ r := distEq_le nb hcsB.2.2.2.2.2.2.1 hmB
      have htri : d ≤ (r + 1) + dB := by
        by_contra hc
        push_neg at hc
        have hwB : Walk nb m rootB dB := walk_reverse nb hs hcsB.2.2.2.2.2.2.1.1
        exact hd.2 _ hc (walk_trans nb hmd.1 hwB)
      obtain ⟨-, hlen, -⟩ := reconstruct_spec nb hs a'.parents b.parents a'.visited b.visited
        rootA rootB m lA lB dA dB hkA' hB.2.2.1 hcsA hcsB
      refine ⟨reconstruct a'.parents b.parents m, ?_, ?_⟩
      · rw [loopP, if_neg hguard, hEA]
      · rw [hlen]
        omega
    | none =>
      obtain ⟨hA', hdisjA⟩ := hnoneA rfl
      have hdisj1 : ∀ v, DistLe nb rootA v (r + 1) → DistLe nb rootB v r → False := by
        intro v h1 h2
        obtain ⟨m1, hm1, hw1⟩ := h1
        obtain ⟨e, he, hde⟩ := distEq_of_walk nb rootA v m1 hw1
        rcases Nat.lt_or_ge e (r + 1) with hlt | hge
        · exact hdisj v ⟨e, by omega, hde.1⟩ h2
        · have her : e = r + 1 := by omega
          subst her
          exact hdisjA v ((hA'.1 v).mpr hde) ((hB.2.1 v).mpr h2)
      have h2r2 : (r + 1) + r + 1 ≤ d := balls_disjoint_dist nb hs hdisj1 hd
      rcases hEB : expandP nb b a'.visited with ⟨b', meetB⟩
      obtain ⟨hcomB, hsomeB, hnoneB⟩ := expandPW nb a'.visited rootB r b hB b' meetB hEB
      cases meetB with
      | some m =>
        obtain ⟨hmo, hmv, hmd⟩ := hsomeB m rfl
        obtain ⟨hkB', -, -, hchainsB', -, -⟩ := hcomB
        obtain ⟨lB, dB, hcsB⟩ := hchainsB' m hmv
        obtain ⟨lA, dA, hcsA⟩ := hA'.2.2.2.2.2 m hmo
        have hdB : dB = r + 1 := distEq_unique nb hcsB.2.2.2.2.2.2.1 hmd
        have hmA : DistLe nb rootA m (r + 1) := (hA'.2.1 m).mp hmo
        have hdAle : dA ≤ r + 1 := distEq_le nb hcsA.2.2.2.2.2.2.1 hmA
        have htri : d ≤ dA + (r + 1) := by
          by_contra hc
          push_neg at hc
          have hwB : Walk nb m rootB (r + 1) := walk_reverse nb hs hmd.1
          exact hd.2 _ hc (walk_trans nb hcsA.2.2.2.2.2.2.1.1 hwB)
        obtain ⟨-, hlen, -⟩ := reconstruct_spec nb hs a'.parents b'.parents a'.visited b'.visited
          rootA rootB m lA lB dA dB hA'.2.2.1 hkB' hcsA hcsB
        refine ⟨reconstruct a'.parents b'.parents m, ?_, ?_⟩
        · rw [loopP, if_neg hguard, hEA]
          dsimp only
          rw [hEB]
        · rw [hlen]
          omega
      | none =>
        obtain ⟨hB', hdisjB⟩ := hnoneB rfl
        have hdisj2 : ∀ v, DistLe nb rootA v (r + 1) → DistLe nb rootB v (r + 1) → False := by
          intro v h1 h2
          obtain ⟨m2, hm2, hw2⟩ := h2
          obtain ⟨e, he, hde⟩ := distEq_of_walk nb rootB v m2 hw2
          rcases Nat.lt_or_ge e (r + 1) with hlt | hge
          · exact hdisj1 v h1 ⟨e, by omega, hde.1⟩
          · have her : e = r + 1 := by omega
            subst her
            exact hdisjB v ((hB'.1 v).mpr hde) ((hA'.2.1 v).mpr h1)
        obtain ⟨p, hp, hplen⟩ := ih (r + 1) a' b' (by omega) hA' hB' hdisj2
        refine ⟨p, ?_, hplen⟩
        rw [loopP, if_neg hguard, hEA]
        dsimp only
        rw [hEB]
        dsimp only
        exact hp

theorem nodeResult_total (t : Tmdb) (ht : Total t) (m : Node) :
    nodeResult t m = .ok (tmdbNbrs t m) := by
  obtain ⟨tag, k⟩ := m
  cases tag with
  | person =>
    obtain ⟨r, hr⟩ := ht.1 k
    simp [nodeResult, tmdbNbrs, nbrsOf, rawP, hr, Except.map]
  | movie =>
    obtain ⟨r, hr⟩ := ht.2 k
    simp [nodeResult, tmdbNbrs, nbrsOf, rawM, hr, Except.map]

theorem nodeResult_ok (t : Tmdb) (m : Node) (nbrs : List Node)
    (h : nodeResult t m = .ok nbrs) : tmdbNbrs t m = nbrs := by
  obtain ⟨tag, k⟩ := m
  cases tag with
  | person =>
    simp only [nodeResult] at h
    rcases hr : t.personCredits k with e | r
    · rw [hr] at h
      simp [Except.map] at h
    · rw [hr] at h
      simp only [Except.map] at h
      injection h with h
      simp [tmdbNbrs, nbrsOf, rawP, hr, h]
  | movie =>
    simp only [nodeResult] at h
    rcases hr : t.movieCredits k with e | r
    · rw [hr] at h
      simp [Except.map] at h
    · rw [hr] at h
      simp only [Except.map] at h
      injection h with h
      simp [tmdbNbrs, nbrsOf, rawM, hr, h]

theorem expandSteps_ok (t : Tmdb) (other : List Node) :
    ∀ (n : Nat) (s : Side) (st : CacheState) (r : Side × Option Node) (st' : CacheState),
    Valid t st → expandSteps t other n s st = (.ok r, st') →
    expandStepsP (tmdbNbrs t) other n s = r ∧ Valid t st' := by
  intro n
  induction n with
  | zero =>
    intro s st r st' hv h
    simp only [expandSteps] at h
    injection h with h1 h2
    injection h1 with h1
    subst h2
    exact ⟨h1, hv⟩
  | succ k ih =>
    intro s st r st' hv h
    obtain ⟨q, ps, vs⟩ := s
    cases q with
    | nil =>
      simp only [expandSteps] at h
      injection h with h1 h2
      injection h1 with h1
      subst h2
      exact ⟨h1, hv⟩
    | cons node rest =>
      obtain ⟨hres, hv'⟩ := neighborsCached_valid t st node hv
      rcases hN : neighborsCached t st node with ⟨res, st1⟩
      rw [hN] at hres hv'
      dsimp only at hres hv'
      simp only [expandSteps] at h
      rw [hN] at h
      cases res with
      | error e =>
        dsimp only at h
        injection h with h1 h2
        exact Except.noConfusion h1
      | ok nbrs =>
        have hnb : tmdbNbrs t node = nbrs := nodeResult_ok t node nbrs hres.symm
        dsimp only at h
        rcases hV : visitNbrs node nbrs ⟨rest, ps, vs⟩ other with ⟨s1, meet1⟩
        rw [hV] at h
        simp only [expandStepsP]
        rw [hnb, hV]
        cases meet1 with
        | some m =>
          dsimp only at h ⊢
          injection h with h1 h2
          injection h1 with h1
          subst h2
          exact ⟨h1, hv'⟩
        | none =>
          dsimp only at h ⊢
          exact ih s1 st1 r st' hv' h

theorem expandSteps_total (t : Tmdb) (ht : Total t) (other : List Node) :
    ∀ (n : Nat) (s : Side) (st : CacheState), Valid t st →
    ∃ r st', expandSteps t other n s st = (.ok r, st') ∧ Valid t st' := by
  intro n
  induction n with
  | zero =>
    intro s st hv
    exact ⟨(s, none), st, rfl, hv⟩
  | succ k ih =>
    intro s st hv
    obtain ⟨q, ps, vs⟩ := s
    cases q with
    | nil => exact ⟨(⟨[], ps, vs⟩, none), st, rfl, hv⟩
    | cons node rest =>
      obtain ⟨hres, hv'⟩ := neighborsCached_valid t st node hv
      rcases hN : neighborsCached t st node with ⟨res, st1⟩
      rw [hN] at hres hv'
      dsimp only at hres hv'
      rw [nodeResult_total t ht node] at hres
      subst hres
      simp only [expandSteps]
      rw [hN]
      dsimp only
      rcases hV : visitNbrs node (tmdbNbrs t node) ⟨rest, ps, vs⟩ other with ⟨s1, meet1⟩
      cases meet1 with
      | some m => exact ⟨(s1, some m), st1, rfl, hv'⟩
      | none =>
        dsimp only
        exact ih s1 st1 hv'

theorem loopD_ok (t : Tmdb) :
    ∀ (fuel : Nat) (a b : Side) (depth me : Nat) (st : CacheState)
      (r : Option (List Node)) (st' : CacheState),
    Valid t st → loopD t fuel a b depth me st = (.ok r, st') →
    loopP (tmdbNbrs t) fuel a b depth me = r ∧ Valid t st' := by
  intro fuel
  induction fuel with
  | zero =>
    intro a b depth me st r st' hv h
    simp only [loopD] at h
    injection h with h1 h2
    injection h1 with h1
    subst h2
    exact ⟨h1, hv⟩
  | succ f ih =>
    intro a b depth me st r st' hv h
    rw [loopD] at h
    rw [loopP]
    split at h
    · rename_i hg
      rw [if_pos hg]
      injection h with h1 h2
      injection h1 with h1
      subst h2
      exact ⟨h1, hv⟩
    · rename_i hg
      rw [if_neg hg]
      rcases hEA : expand t a b.visited st with ⟨resA, st1⟩
      rw [hEA] at h
      cases resA with
      | error e =>
        dsimp only at h
        injection h with h1 h2
        exact Except.noConfusion h1
      | ok ra =>
        obtain ⟨a', meetA⟩ := ra
        obtain ⟨hpa, hv1⟩ := expandSteps_ok t b.visited a.q.length a st (a', meetA) st1 hv hEA
        have hPA : expandP (tmdbNbrs t) a b.visited = (a', meetA) := hpa
        rw [hPA]
        cases meetA with
        | some m =>
          dsimp only at h ⊢
          injection h with h1 h2
          injection h1 with h1
          subst h2
          exact ⟨h1, hv1⟩
        | none =>
          dsimp only at h ⊢
          rcases hEB : expand t b a'.visited st1 with ⟨resB, st2⟩
          rw [hEB] at h
          cases resB with
          | error e =>
            dsimp only at h
            injection h with h1 h2
            exact Except.noConfusion h1
          | ok rb =>
            obtain ⟨b', meetB⟩ := rb
            obtain ⟨hpb, hv2⟩ :=
              expandSteps_ok t a'.visited b.q.length b st1 (b', meetB) st2 hv1 hEB
            have hPB : expandP (tmdbNbrs t) b a'.visited = (b', meetB) := hpb
            rw [hPB]
            cases meetB with
            | some m =>
              dsimp only at h ⊢
              injection h with h1 h2
              injection h1 with h1
              subst h2
              exact ⟨h1, hv2⟩
            | none =>
              dsimp only at h ⊢
              exact ih a' b' (depth + 1) me st2 r st' hv2 h

theorem loopD_total (t : Tmdb) (ht : Total t) :
    ∀ (fuel : Nat) (a b : Side) (depth me : Nat) (st : CacheState), Valid t st →
    ∃ r st', loopD t fuel a b depth me st = (.ok r, st') ∧ Valid t st' := by
  intro fuel
  induction fuel with
  | zero =>
    intro a b depth me st hv
    exact ⟨none, st, rfl, hv⟩
  | succ f ih =>
    intro a b depth me st hv
    rw [loopD]
    by_cases hg : a.q = [] ∨ b.q = [] ∨ me < depth
    · rw [if_pos hg]
      exact ⟨none, st, rfl, hv⟩
    · rw [if_neg hg]
      obtain ⟨ra, st1, hEA, hv1⟩ := expandSteps_total t ht b.visited a.q.length a st hv
      rw [show expand t a b.visited st = (.ok ra, st1) from hEA]
      obtain ⟨a', meetA⟩ := ra
      cases meetA with
      | some m => exact ⟨some (reconstruct a'.parents b.parents m), st1, rfl, hv1⟩
      | none =>
        dsimp only
        obtain ⟨rb, st2, hEB, hv2⟩ := expandSteps_total t ht a'.visited b.q.length b st1 hv1
        rw [show expand t b a'.visited st1 = (.ok rb, st2) from hEB]
        obtain ⟨b', meetB⟩ := rb
        cases meetB with
        | some m => exact ⟨some (reconstruct a'.parents b'.parents m), st2, rfl, hv2⟩
        | none =>
          dsimp only
          exact ih a' b' (depth + 1) me st2 hv2

theorem bidir_ok (t : Tmdb) (st : CacheState) (hv : Valid t st) (x y k : Nat)
    (r : Option (List Node)) (st' : CacheState)
    (h : bidir_bfs_people t st x y k = (.ok r, st')) :
    bidirP (tmdbNbrs t) x y k = r := by
  by_cases hxy : x = y
  · subst hxy
    simp only [bidir_bfs_people, if_pos rfl] at h
    injection h with h1 h2
    injection h1 with h1
    rw [bidirP, if_pos rfl, h1]
  · simp only [bidir_bfs_people, if_neg hxy] at h
    rw [bidirP, if_neg hxy]
    exact (loopD_ok t (k + 1) (initSide x) (initSide y) 0 k st r st' hv h).1

theorem bidir_bridge (t : Tmdb) (ht : Total t) (st : CacheState) (hv : Valid t st)
    (x y k : Nat) :
    (bidir_bfs_people t st x y k).1 = .ok (bidirP (tmdbNbrs t) x y k) := by
  by_cases hxy : x = y
  · subst hxy
    simp [bidir_bfs_people, bidirP]
  · simp only [bidir_bfs_people, bidirP, if_neg hxy]
    obtain ⟨r, st', hrun, hv'⟩ := loopD_total t ht (k + 1) (initSide x) (initSide y) 0 k st hv
    obtain ⟨heq, -⟩ := loopD_ok t (k + 1) (initSide x) (initSide y) 0 k st r st' hv hrun
    rw [hrun, heq]

theorem bidirP_shortest (nb : Node → List Node) (hs : Symm nb) (x y k d : Nat)
    (hd : DistEq nb (Tag.person, x) (Tag.person, y) d) (hdk : d ≤ k) :
    ∃ p, bidirP nb x y k = some p ∧ p.length = d + 1 := by
  by_cases hxy : x = y
  · subst hxy
    have hd0 : d = 0 := by
      by_contra h0
      exact hd.2 0 (by omega) (Walk.nil _)
    subst hd0
    exact ⟨[(Tag.person, x)], by simp [bidirP], rfl⟩
  · have hdisj0 :
        ∀ v, DistLe nb (Tag.person, x) v 0 → DistLe nb (Tag.person, y) v 0 → False := by
      intro v h1 h2
      obtain ⟨m1, hm1, hw1⟩ := h1
      obtain ⟨m2, hm2, hw2⟩ := h2
      have e1 : m1 = 0 := by omega
      have e2 : m2 = 0 := by omega
      subst e1
      subst e2
      have q1 := walk_zero nb _ _ hw1
      have q2 := walk_zero nb _ _ hw2
      have hpq : (Tag.person, x) = ((Tag.person, y) : Node) := q1.trans q2.symm
      exact hxy (congrArg Prod.snd hpq)
    obtain ⟨p, hp, hlen⟩ := loopP_complete nb hs (Tag.person, x) (Tag.person, y) d k hd hdk
      (k + 1) 0 (initSide x) (initSide y) (by omega) (initSide_inv nb x) (initSide_inv nb y)
      hdisj0
    refine ⟨p, ?_, hlen⟩
    rw [bidirP, if_neg hxy]
    exact hp

theorem bidirP_sound (nb : Node → List Node) (hs : Symm nb) (x y k : Nat) (p : List Node)
    (h : bidirP nb x y k = some p) :
    PathProps nb (Tag.person, x) (Tag.person, y) p := by
  by_cases hxy : x = y
  · subst hxy
    rw [bidirP, if_pos rfl] at h
    injection h with h
    subst h
    exact ⟨rfl, by simp, List.chain'_singleton _⟩
  · rw [bidirP, if_neg hxy] at h
    exact loopP_sound nb hs (Tag.person, x) (Tag.person, y) k (k + 1) 0
      (initSide x) (initSide y) p (initSide_inv nb x) (initSide_inv nb y) h

theorem tmdbNbrs_tag (t : Tmdb) (u v : Node) (h : v ∈ tmdbNbrs t u) : u.1 ≠ v.1 := by
  obtain ⟨tu, ku⟩ := u
  cases tu with
  | person =>
    simp only [tmdbNbrs, nbrsOf] at h
    obtain ⟨m, -, hm⟩ := List.mem_map.mp h
    subst hm
    exact fun hc => Tag.noConfusion hc
  | movie =>
    simp only [tmdbNbrs, nbrsOf] at h
    obtain ⟨m, -, hm⟩ := List.mem_map.mp h
    subst hm
    exact fun hc => Tag.noConfusion hc

theorem pairTotal : Total pairTmdb := by
  constructor
  · intro k
    by_cases h1 : k = 1
    · exact ⟨[10], by simp [pairTmdb, h1]⟩
    · by_cases h2 : k = 2
      · exact ⟨[10], by simp [pairTmdb, h1, h2]⟩
      · exact ⟨[], by simp [pairTmdb, h1, h2]⟩
  · intro k
    by_cases h10 : k = 10
    · exact ⟨[1, 2], by simp [pairTmdb, h10]⟩
    · exact ⟨[], by simp [pairTmdb, h10]⟩

theorem pairValid : Valid pairTmdb cache0 :=
  ⟨fun p hp => absurd hp (List.not_mem_nil p), fun p hp => absurd hp (List.not_mem_nil p)⟩

theorem pairSymm : Symm (tmdbNbrs pairTmdb) := by
  intro u v hv
  obtain ⟨tu, ku⟩ := u
  cases tu with
  | person =>
    by_cases h1 : ku = 1
    · subst h1
      rw [show tmdbNbrs pairTmdb (Tag.person, 1) = [(Tag.movie, 10)] from by decide] at hv
      simp only [List.mem_singleton] at hv
      subst hv
      decide
    · by_cases h2 : ku = 2
      · subst h2
        rw [show tmdbNbrs pairTmdb (Tag.person, 2) = [(Tag.movie, 10)] from by decide] at hv
        simp only [List.mem_singleton] at hv
        subst hv
        decide
      · exfalso
        simp only [tmdbNbrs, nbrsOf, rawP, pairTmdb] at hv
        rw [if_neg h1, if_neg h2] at hv
        simp [sortedDedup] at hv
  | movie =>
    by_cases h10 : ku = 10
    · subst h10
      rw [show tmdbNbrs pairTmdb (Tag.movie, 10) = [(Tag.person, 1), (Tag.person, 2)] from
        by decide] at hv
      simp only [List.mem_cons, List.not_mem_nil, or_false] at hv
      rcases hv with hv | hv
      · subst hv
        decide
      · subst hv
        decide
    · exfalso
      simp only [tmdbNbrs, nbrsOf, rawM, pairTmdb] at hv
      rw [if_neg h10] at hv
      simp [sortedDedup] at hv

theorem pairDist : DistEq (tmdbNbrs pairTmdb) (Tag.person, 1) (Tag.person, 2) 2 := by
  constructor
  · exact Walk.cons (show (Tag.movie, 10) ∈ tmdbNbrs pairTmdb (Tag.person, 1) by decide)
      (Walk.cons (show ((Tag.person, 2) : Node) ∈ tmdbNbrs pairTmdb (Tag.movie, 10) by decide)
        (Walk.nil _))
  · intro m hm hw
    interval_cases m
    · exact absurd (walk_zero _ _ _ hw) (by decide)
    · exact absurd (walk_one_inv _ hw) (by decide)

/-! ## Claim theorems -/

/-- C8: for every person id `x` and every `max_edges`, `bidir_bfs_people(x, x, k)`
returns the single-node path `[("person", x)]` with the cache state untouched —
in particular independent of the provider, so neither the provider nor the
expansion loop is invoked. -/
theorem c8_self_path (t : Tmdb) (st : CacheState) (x k : Nat) :
    bidir_bfs_people t st x x k = (.ok (some [(Tag.person, x)]), st) := by
  simp [bidir_bfs_people]

/-- C2, evaluation at the failing input: on the chain graph
`Person(1)-Movie(10)-Person(2)-Movie(20)-Person(3)`, `findPath(1, 3, 2)` does
not return the "no path" result — it returns the full 4-edge path, because the
`depth` counter of the loop counts rounds of two frontier expansions rather
than path edges. -/
theorem c2_chain_eval :
    (bidir_bfs_people chainTmdb cache0 1 3 2).1 = .ok (some chainPath) := rfl

/-- C3, counterexample: expanding the frontier `[Person(1), Person(9)]` when
`Movie(5)` (a neighbour of person 1) is already visited on the other side
returns the meeting immediately: person 9 is never dequeued (it is still in the
queue of the result) and its neighbour, movie 7, is never resolved (it is
neither in the queue nor in the cache). The remaining neighbour resolutions of
the level do not complete and the next frontier is not fully populated. -/
theorem c3_counterexample :
    expand meetTmdb meetSide [(Tag.movie, 5)] cache0 =
      (.ok (⟨[(Tag.person, 9), (Tag.movie, 5)],
             [((Tag.movie, 5), some (Tag.person, 1)),
              ((Tag.person, 1), none), ((Tag.person, 9), none)],
             [(Tag.movie, 5), (Tag.person, 1), (Tag.person, 9)]⟩,
        some (Tag.movie, 5)),
       ⟨[(1, [5])], []⟩) := rfl

/-- C6, counterexample: unresolvable roots are not rejected before the loop.
With source = target = 5 unknown to the provider, a path is returned and no
`NotFound` is raised at all; with a resolvable source 1 and an unknown target 5,
the failure only surfaces from inside the first expansion round — the source's
neighbour fetch has already run and been cached by that time. -/
theorem c6_counterexample :
    bidir_bfs_people chainTmdb cache0 5 5 3 = (.ok (some [(Tag.person, 5)]), cache0) ∧
    (bidir_bfs_people chainTmdb cache0 1 5 3).1 = .error .notFound ∧
    (bidir_bfs_people chainTmdb cache0 1 5 3).2.person = [(1, [10])] :=
  ⟨rfl, rfl, rfl⟩

/-- C6 (amended): an unresolvable root is not detected before the loop; the
provider failure surfaces from within the first expansion round. When the
source id's fetch fails (and is not cached), the whole search raises that
error, with the cache left unchanged. -/
theorem c6_root_failure_in_loop (t : Tmdb) (st : CacheState) (s tt k : Nat) (e : TmdbError)
    (hne : s ≠ tt) (hf : t.personCredits s = .error e) (hc : clookup st.person s = none) :
    bidir_bfs_people t st s tt k = (.error e, st) := by
  simp [bidir_bfs_people, if_neg hne, loopD, initSide, expand, expandSteps,
    neighborsCached, person_movies_cached, lruStep, hc, hf, Except.map]

/-- C6, witness for the amended theorem at a concrete input. -/
theorem c6_root_failure_in_loop_witness :
    bidir_bfs_people chainTmdb cache0 5 1 3 = (.error .notFound, cache0) :=
  c6_root_failure_in_loop chainTmdb cache0 5 1 3 .notFound (by decide) rfl rfl

/-- C3 (amended): when the frontier expander discovers a neighbour that is
already visited on the other side, it records it and returns it immediately as
the meeting node; the rest of the level is abandoned — the result queue is the
undequeued suffix of the input frontier followed by the neighbours appended up
to that point. -/
theorem c3_meeting_immediate (t : Tmdb) (s : Side) (other : List Node) (st : CacheState)
    (s' : Side) (m : Node) (st' : CacheState)
    (h : expand t s other st = (.ok (s', some m), st')) :
    m ∈ other ∧ m ∈ s'.visited ∧ ∃ d app, d ≤ s.q.length ∧ s'.q = s.q.drop d ++ app := by
  obtain ⟨hm1, hm2⟩ := expandSteps_meet_mem t other s.q.length s s' st st' m h
  obtain ⟨d, app, _, hdlen, hq, _⟩ := expandSteps_queue t other s.q.length s s' st st' (some m) h
  exact ⟨hm1, hm2, d, app, hdlen, hq⟩

/-- C3, witness for the amended theorem at the concrete mid-level meeting. -/
theorem c3_meeting_immediate_witness :
    (Tag.movie, 5) ∈ [(Tag.movie, 5)] ∧
    (Tag.movie, 5) ∈ (⟨[(Tag.person, 9), (Tag.movie, 5)],
        [((Tag.movie, 5), some (Tag.person, 1)),
         ((Tag.person, 1), none), ((Tag.person, 9), none)],
        [(Tag.movie, 5), (Tag.person, 1), (Tag.person, 9)]⟩ : Side).visited ∧
    ∃ d app, d ≤ meetSide.q.length ∧
      (⟨[(Tag.person, 9), (Tag.movie, 5)],
        [((Tag.movie, 5), some (Tag.person, 1)),
         ((Tag.person, 1), none), ((Tag.person, 9), none)],
        [(Tag.movie, 5), (Tag.person, 1), (Tag.person, 9)]⟩ : Side).q =
        meetSide.q.drop d ++ app :=
  c3_meeting_immediate meetTmdb meetSide [(Tag.movie, 5)] cache0 _ _ _ rfl

/-- C10, counterexample to "exactly `len(q)` dequeues": in the mid-level
meeting scenario the entry frontier holds two nodes, but the meeting aborts the
level after a single dequeue — the entry node `Person(9)` is still in the queue
when `expand` returns. -/
theorem c10_counterexample :
    (Tag.person, 9) ∈ meetSide.q ∧
    (expand meetTmdb meetSide [(Tag.movie, 5)] cache0).1 =
      .ok (⟨[(Tag.person, 9), (Tag.movie, 5)],
            [((Tag.movie, 5), some (Tag.person, 1)),
             ((Tag.person, 1), none), ((Tag.person, 9), none)],
            [(Tag.movie, 5), (Tag.person, 1), (Tag.person, 9)]⟩,
        some (Tag.movie, 5)) ∧
    (Tag.person, 9) ∈ [(Tag.person, 9), (Tag.movie, 5)] :=
  ⟨by simp [meetSide], rfl, by simp⟩

/-- C10 (amended): the search terminates — the loop's result is unchanged by
any fuel of at least `max_edges + 1 - depth` structural iterations, i.e. the
`while` loop runs at most `max_edges + 1` times; and each `expand` call
dequeues at most `len(q)` nodes (only nodes present at entry), exactly
`len(q)` of them when no meeting is reported. -/
theorem c10_loop_iterations (t : Tmdb) :
    (∀ f g a b depth me st, me + 1 - depth ≤ f → me + 1 - depth ≤ g →
        loopD t f a b depth me st = loopD t g a b depth me st) ∧
    (∀ s other st s' meet st', expand t s other st = (.ok (s', meet), st') →
        ∃ d app, d ≤ s.q.length ∧ s'.q = s.q.drop d ++ app ∧
          (meet = none → d = s.q.length)) := by
  constructor
  · exact loopD_fuel t
  · intro s other st s' meet st' h
    obtain ⟨d, app, hdn, hdlen, hq, hm⟩ :=
      expandSteps_queue t other s.q.length s s' st st' meet h
    exact ⟨d, app, hdlen, hq, fun hmm => by have := hm hmm; simpa using this⟩

/-- C10, witness for the amended theorem: extra fuel does not change the
result at a concrete input. -/
theorem c10_loop_iterations_witness :
    loopD chainTmdb 3 (initSide 1) (initSide 3) 0 2 cache0 =
      loopD chainTmdb 9 (initSide 1) (initSide 3) 0 2 cache0 :=
  (c10_loop_iterations chainTmdb).1 3 9 (initSide 1) (initSide 3) 0 2 cache0
    (by decide) (by decide)

/-- C4, counterexample to the single shared budget: the two `lru_cache`
decorators are independent tables of 10,000 entries each. After 10,000 distinct
person keys and one movie key, 10,001 entries are live simultaneously and the
least-recently-accessed key (person 0) is still retrievable — nothing was
evicted. -/
theorem c4_counterexample :
    c4state.person.length + c4state.movie.length = LRU_MAXSIZE + 1 ∧
    clookup c4state.person 0 = some [] ∧ clookup c4state.movie 0 = some [] := by
  obtain ⟨hP, hM⟩ := c4state_parts
  have hm : 0 ∈ (List.range LRU_MAXSIZE).reverse := by
    rw [List.mem_reverse, List.mem_range]
    norm_num [LRU_MAXSIZE]
  refine ⟨?_, ?_, ?_⟩
  · have l1 : c4state.person.length = LRU_MAXSIZE :=
      (congrArg List.length hP).trans (by
        rw [List.length_append, List.length_map, List.length_reverse, List.length_range,
          show (cache0.person : Cache).length = 0 from rfl]
        omega)
    rw [l1, hM, List.length_singleton]
  · have hm0 : clookup ((List.range LRU_MAXSIZE).reverse.map (fun k => (k, ([] : List Nat)))) 0 =
        some [] := clookup_map_const_some _ 0 hm
    exact (congrArg (fun c => clookup c 0) hP).trans (clookup_append_some _ _ 0 [] hm0)
  · rw [hM]; rfl

/-- C4 (amended): each of the two adjacency caches has its own 10,000-entry
LRU budget. Part 1: a movie lookup never touches the person table and vice
versa (separate budgets). Part 2: within one cache, inserting 10,001 distinct
keys evicts exactly the least-recently-used key; all others stay retrievable.
Part 3: recency is refreshed on read — after filling the cache, reading the
oldest key and inserting a fresh one evicts the second-oldest key instead. -/
theorem c4_lru_per_cache :
    (∀ (t : Tmdb) (st : CacheState) (k : Nat),
        (movie_cast_cached t st k).2.person = st.person ∧
        (person_movies_cached t st k).2.movie = st.movie) ∧
    (∀ (k0 klast : Nat) (rest1 : List Nat),
        ((k0 :: rest1) ++ [klast]).Nodup → rest1.length + 1 = LRU_MAXSIZE →
        clookup (warmPersons tAll ((k0 :: rest1) ++ [klast]) cache0).person k0 = none ∧
        ∀ j ∈ rest1 ++ [klast],
          clookup (warmPersons tAll ((k0 :: rest1) ++ [klast]) cache0).person j = some []) ∧
    (∀ (k0 k1 knew : Nat) (rest2 : List Nat),
        (k0 :: k1 :: rest2).Nodup → rest2.length + 2 = LRU_MAXSIZE →
        knew ∉ k0 :: k1 :: rest2 →
        clookup (person_movies_cached tAll (person_movies_cached tAll
            (warmPersons tAll (k0 :: k1 :: rest2) cache0) k0).2 knew).2.person k0 = some [] ∧
        clookup (person_movies_cached tAll (person_movies_cached tAll
            (warmPersons tAll (k0 :: k1 :: rest2) cache0) k0).2 knew).2.person k1 = none) :=
  ⟨fun _ _ _ => ⟨rfl, rfl⟩, c4_evict, c4_refresh⟩

/-- C4, witness for the amended theorem at concrete key sequences. -/
theorem c4_lru_per_cache_witness :
    clookup (warmPersons tAll
      ((0 :: (List.range (LRU_MAXSIZE - 1)).map (fun i => i + 1)) ++ [LRU_MAXSIZE])
      cache0).person 0 = none ∧
    clookup (warmPersons tAll
      ((0 :: (List.range (LRU_MAXSIZE - 1)).map (fun i => i + 1)) ++ [LRU_MAXSIZE])
      cache0).person 1 = some [] := by
  have hnd : ((0 :: (List.range (LRU_MAXSIZE - 1)).map (fun i => i + 1)) ++
      [LRU_MAXSIZE]).Nodup := by
    rw [List.nodup_append]
    refine ⟨?_, by simp, ?_⟩
    · rw [List.nodup_cons]
      refine ⟨?_, List.Nodup.map (fun a b h => by omega) (List.nodup_range _)⟩
      simp only [List.mem_map, List.mem_range]
      rintro ⟨i, -, hi⟩
      omega
    · intro a ha hb
      simp only [List.mem_singleton] at hb
      subst hb
      simp only [List.mem_cons, List.mem_map, List.mem_range] at ha
      rcases ha with h | ⟨i, hi, hie⟩
      · norm_num [LRU_MAXSIZE] at h
      · omega
  have hlen : ((List.range (LRU_MAXSIZE - 1)).map (fun i => i + 1)).length + 1 = LRU_MAXSIZE := by
    rw [List.length_map, List.length_range]
    norm_num [LRU_MAXSIZE]
  obtain ⟨w1, w2⟩ := c4_lru_per_cache.2.1 0 LRU_MAXSIZE
    ((List.range (LRU_MAXSIZE - 1)).map (fun i => i + 1)) hnd hlen
  refine ⟨w1, w2 1 ?_⟩
  rw [List.mem_append]
  left
  simp only [List.mem_map, List.mem_range]
  exact ⟨0, by norm_num [LRU_MAXSIZE], rfl⟩

/-- C5: a failing neighbour fetch caches nothing and propagates. If a node's
provider fetch fails and it has no cache entry, then resolving it yields the
error with the cache state unchanged; moreover no search run from this state
ever creates an entry for it, so resolving it after any search still re-calls
the provider and surfaces the same retryable failure. -/
theorem c5_no_negative_caching (t : Tmdb) (st : CacheState) (n : Node) (e : TmdbError)
    (hf : nodeFetch t n = .error e) (hc : nodeCached st n = none) :
    neighborsCached t st n = (.error e, st) ∧
    ∀ source target k,
      nodeCached (bidir_bfs_people t st source target k).2 n = none ∧
      neighborsCached t (bidir_bfs_people t st source target k).2 n =
        (.error e, (bidir_bfs_people t st source target k).2) := by
  refine ⟨neighborsCached_error t st n e hf hc, ?_⟩
  intro source target k
  have hafter := nodeCached_bidir t st n e hf hc source target k
  exact ⟨hafter, neighborsCached_error t _ n e hf hafter⟩

/-- C5, witness at a concrete failing node: person 5 is unknown to `chainTmdb`. -/
theorem c5_no_negative_caching_witness :
    neighborsCached chainTmdb cache0 (Tag.person, 5) = (.error .notFound, cache0) ∧
    nodeCached (bidir_bfs_people chainTmdb cache0 1 5 3).2 (Tag.person, 5) = none := by
  have h := c5_no_negative_caching chainTmdb cache0 (Tag.person, 5) .notFound rfl rfl
  exact ⟨h.1, (h.2 1 5 3).1⟩

/-- C9: against a fixed provider, the search result is independent of cache
warmth. For any two cache states consistent with the provider (in particular a
cold cache and any cache produced by earlier searches against the same
provider), two calls with identical source, target and max_edges return the
same result; and every search leaves the cache consistent again, so repeated
calls also agree. -/
theorem c9_cache_independent (t : Tmdb) (st1 st2 : CacheState) (source target k : Nat)
    (h1 : Valid t st1) (h2 : Valid t st2) :
    (bidir_bfs_people t st1 source target k).1 = (bidir_bfs_people t st2 source target k).1 ∧
    Valid t (bidir_bfs_people t st1 source target k).2 := by
  unfold bidir_bfs_people
  split
  · exact ⟨rfl, h1⟩
  · obtain ⟨hr, hv1, hv2⟩ := loopD_pair t (k + 1) (initSide source) (initSide target) 0 k st1 st2 h1 h2
    exact ⟨hr, hv1⟩

/-- C9, witness: the chain search gives the same path from a cold cache and
from a warm cache already holding person 1's credits. -/
theorem c9_cache_independent_witness :
    (bidir_bfs_people chainTmdb cache0 1 3 2).1 =
      (bidir_bfs_people chainTmdb ⟨[(1, [10])], []⟩ 1 3 2).1 :=
  (c9_cache_independent chainTmdb cache0 ⟨[(1, [10])], []⟩ 1 3 2
    (by constructor <;> intro p hp <;> simp [cache0] at hp)
    (by
      constructor
      · intro p hp
        simp only [List.mem_singleton] at hp
        subst hp
        rfl
      · intro p hp
        simp at hp)).1

/-- C1: for a provider on which every fetch succeeds, whose induced adjacency is
symmetric, and any cache state consistent with it, if persons `x` and `y` are at
exact shortest-path distance `d ≤ max_edges` in the induced graph, then
`bidir_bfs_people(x, y, max_edges)` succeeds and returns a path of `d + 1`
nodes, i.e. whose edge count equals the true shortest-path distance. -/
theorem c1_shortest_path (t : Tmdb) (st : CacheState) (x y k d : Nat)
    (hs : Symm (tmdbNbrs t)) (ht : Total t) (hv : Valid t st)
    (hd : DistEq (tmdbNbrs t) (Tag.person, x) (Tag.person, y) d) (hdk : d ≤ k) :
    ∃ p, (bidir_bfs_people t st x y k).1 = .ok (some p) ∧ p.length = d + 1 := by
  obtain ⟨p, hp, hlen⟩ := bidirP_shortest (tmdbNbrs t) hs x y k d hd hdk
  refine ⟨p, ?_, hlen⟩
  rw [bidir_bridge t ht st hv x y k, hp]

/-- Witness for C1: on the concrete provider where persons 1 and 2 share
movie 10, the distance between them is exactly 2 and the search returns a
path with 3 nodes. -/
theorem c1_shortest_path_witness :
    Symm (tmdbNbrs pairTmdb) ∧ Total pairTmdb ∧ Valid pairTmdb cache0 ∧
    DistEq (tmdbNbrs pairTmdb) (Tag.person, 1) (Tag.person, 2) 2 ∧ 2 ≤ 6 ∧
    ∃ p, (bidir_bfs_people pairTmdb cache0 1 2 6).1 = .ok (some p) ∧ p.length = 2 + 1 :=
  ⟨pairSymm, pairTotal, pairValid, pairDist, by omega,
    c1_shortest_path pairTmdb cache0 1 2 6 2 pairSymm pairTotal pairValid pairDist (by omega)⟩

/-- C7: every path returned by the search (for a provider with symmetric
induced adjacency and a cache consistent with it) starts at the source person,
ends at the target person, every consecutive pair is a genuine edge of the
provider's adjacency (the later node belongs to the neighbour set of the
former), and the Person/Movie tags strictly alternate along it; when source
equals target this specialises to the single-element path. -/
theorem c7_path_wellformed (t : Tmdb) (st : CacheState) (x y k : Nat) (p : List Node)
    (st' : CacheState) (hs : Symm (tmdbNbrs t)) (hv : Valid t st)
    (h : bidir_bfs_people t st x y k = (.ok (some p), st')) :
    p.head? = some (Tag.person, x) ∧ p.getLast? = some (Tag.person, y) ∧
    List.Chain' (fun u v => v ∈ tmdbNbrs t u) p ∧
    List.Chain' (fun u v : Node => u.1 ≠ v.1) p := by
  have hbp : bidirP (tmdbNbrs t) x y k = some p := bidir_ok t st hv x y k (some p) st' h
  obtain ⟨h1, h2, h3⟩ := bidirP_sound (tmdbNbrs t) hs x y k p hbp
  exact ⟨h1, h2, h3, h3.imp fun a b hab => tmdbNbrs_tag t a b hab⟩

/-- Witness for C7: the concrete 3-node path returned for persons 1 and 2
sharing movie 10 starts at person 1, ends at person 2, uses genuine edges and
alternates tags. -/
theorem c7_path_wellformed_witness :
    ([(Tag.person, 1), (Tag.movie, 10), (Tag.person, 2)] : List Node).head? =
      some (Tag.person, 1) ∧
    ([(Tag.person, 1), (Tag.movie, 10), (Tag.person, 2)] : List Node).getLast? =
      some (Tag.person, 2) ∧
    List.Chain' (fun u v => v ∈ tmdbNbrs pairTmdb u)
      [(Tag.person, 1), (Tag.movie, 10), (Tag.person, 2)] ∧
    List.Chain' (fun u v : Node => u.1 ≠ v.1)
      [(Tag.person, 1), (Tag.movie, 10), (Tag.person, 2)] :=
  c7_path_wellformed pairTmdb cache0 1 2 6 [(Tag.person, 1), (Tag.movie, 10), (Tag.person, 2)]
    (bidir_bfs_people pairTmdb cache0 1 2 6).2 pairSymm pairValid rfl

end ActorDeg
